import Mathlib

/-! Cardinal: spatial kernels of `src/spatial.cpp`.

A shallow embedding of the six numeric kernels of `spatial.cpp`
(`find_neighbors`, `get_spatial_offsets`, `get_spatial_weights`,
`get_spatial_distance`, `get_spatial_scores`, `get_spatial_filter`).

Conventions of the embedding.

* A C `double` is an element of a linearly ordered field `α`; arithmetic is
  exact.  Rounding, overflow, NaN and signed zeros are not represented.  The
  places in which the source relies on an infinite double (`R_NegInf`,
  `R_PosInf`, and `1.0 / ncol` for `ncol = 0`) are represented explicitly.
* The `<cmath>` functions `sqrt`, `exp`, `pow` are the fields of a record
  `CMath α`; `CMath.IsIdeal` states that a record over `ℝ` is the real square
  root, exponential and power.  `fabs` is the absolute value of the field.
  Where a statement depends on the rounding or the underflow of these functions
  it is proved from `CMath.IsRounded`, properties that the functions on doubles
  have as well; `with_underflow` and `with_sqrt_at` give records with the
  values of doubles at chosen arguments.
* Where a statement depends on the rounding of `+`, `*` and `/` themselves
  (`get_spatial_filter`), the kernel is also given over a record `DoubleOps` of
  these operations (`get_spatial_filter_ops`).
* A raw pointer `T *` is a total function `Nat → T`; a store `p[i] = v` is
  `Function.update p i v`.  An R matrix is its dimensions and its data pointer
  (column-major, as in R).
* The template parameter `T` of a kernel is a type with a subtraction and a
  conversion `toDouble : T → α` (the implicit conversion to `double`).
* C `int`s that are used as indices or counts are natural numbers; group
  labels are integers.
* A `for` loop is a left fold of its body over the explicit program state.
-/

namespace Cardinal

/-! ## Program-level vocabulary -/

/-- The `<cmath>` functions used by `spatial.cpp`, over the carrier `α` of doubles.
`powInf x` is `pow(x, +Inf)`, which the source evaluates when `ncol = 0`. -/
structure CMath (α : Type) where
  sqrt : α → α
  exp : α → α
  pow : α → α → α
  powInf : α → α

/-- The record `m` computes the real functions: `sqrt` on non-negative arguments,
`exp` everywhere, `pow(x, y)` for a non-negative base and a non-negative exponent, and
`pow(x, +Inf) = 0` for `|x| < 1` (C99 F.9.4.4).  Outside these domains the C functions
return NaN or an infinity, which the carrier does not have. -/
structure CMath.IsIdeal (m : CMath ℝ) : Prop where
  sqrt_eq : ∀ x : ℝ, 0 ≤ x → m.sqrt x = Real.sqrt x
  exp_eq : ∀ x : ℝ, m.exp x = Real.exp x
  pow_eq : ∀ x y : ℝ, 0 ≤ x → 0 ≤ y → m.pow x y = x ^ y
  powInf_eq : ∀ x : ℝ, |x| < 1 → m.powInf x = 0

/-- An R matrix: `Rf_nrows`, `Rf_ncols` and the column-major data pointer. -/
structure RMatrix (T : Type) where
  nrow : Nat
  ncol : Nat
  ptr : Nat → T

/-- The elements `p[0], ..., p[len-1]` of an R vector of length `len` with data pointer `p`. -/
def vecElems {T : Type} (len : Nat) (p : Nat → T) : List T :=
  (List.range len).map p

/-- The loop `for (int i = 0; i < n; ++i) body` run on the state `s`. -/
def forLoop {σ : Type} (n : Nat) (body : Nat → σ → σ) (s : σ) : σ :=
  (List.range n).foldl (fun st i => body i st) s

/-- The loop `for (int i = i0; i < i0 + rem && cond; ++i) body` run on the state `s`. -/
def forLoopWhileFrom {σ : Type} (cond : σ → Bool) (body : Nat → σ → σ) :
    Nat → Nat → σ → σ
  | 0, _, s => s
  | rem + 1, i, s =>
    if cond s then forLoopWhileFrom cond body rem (i + 1) (body i s) else s

/-- The loop `for (int i = 0; i < n && cond; ++i) body` run on the state `s`. -/
def forLoopWhile {σ : Type} (n : Nat) (cond : σ → Bool) (body : Nat → σ → σ) (s : σ) : σ :=
  forLoopWhileFrom cond body n 0 s

/-! ## `find_neighbors` (spatial.cpp, lines 6-80) -/

def RADIAL : Int := 1
def MANHATTAN : Int := 2
def MINKOWSKI : Int := 3
def CHEBYSHEV : Int := 4

section FindNeighbors

variable {α : Type} [LinearOrderedField α] {T : Type} [Sub T]

/-- The first `switch` (lines 34-46): one dimension step on the accumulator `d2`.
The `MINKOWSKI` case has no `break` and falls through into the `CHEBYSHEV` case. -/
def accumulate (m : CMath α) (dist_type : Int) (ncol : Nat) (d d2 : α) : α :=
  if dist_type = RADIAL then d2 + d * d
  else if dist_type = MANHATTAN then d2 + |d|
  else if dist_type = MINKOWSKI then
    let d2 := d2 + m.pow |d| (ncol : α)
    if |d| > d2 then |d| else d2
  else if dist_type = CHEBYSHEV then
    if |d| > d2 then |d| else d2
  else d2

/-- The loop over the dimensions (lines 31-47): `d2` for the pair `(i, ii)`. -/
def pair_d2 (m : CMath α) (toDouble : T → α) (coord : RMatrix T) (dist_type : Int)
    (i ii : Nat) : α :=
  forLoop coord.ncol
    (fun j d2 =>
      let d := toDouble (coord.ptr (j * coord.nrow + i) - coord.ptr (j * coord.nrow + ii))
      accumulate m dist_type coord.ncol d d2)
    0

/-- The expression `pow(d2, 1.0 / ncol)`; the exponent is `+Inf` when `ncol = 0`. -/
def pow_inv_ncol (m : CMath α) (ncol : Nat) (d2 : α) : α :=
  if ncol = 0 then m.powInf d2 else m.pow d2 (1 / (ncol : α))

/-- The second `switch` (lines 48-61): the value stored in `is_neighbor[ii]`; with an
unknown `dist_type` no case is taken and the flag keeps the value `cur`. -/
def accept (m : CMath α) (dist_type : Int) (ncol : Nat) (R d2 : α) (cur : Bool) : Bool :=
  if dist_type = RADIAL then decide (m.sqrt d2 ≤ R)
  else if dist_type = MANHATTAN then decide (d2 ≤ R)
  else if dist_type = MINKOWSKI then decide (pow_inv_ncol m ncol d2 ≤ R)
  else if dist_type = CHEBYSHEV then decide (d2 ≤ R)
  else cur

/-- The body of the loop over `ii` (lines 26-63) on the state
`(is_neighbor, num_neighbors)`. -/
def scan_body (m : CMath α) (toDouble : T → α) (coord : RMatrix T) (R : α)
    (pGroups : Nat → Int) (dist_type : Int) (i ii : Nat) (st : (Nat → Bool) × Nat) :
    (Nat → Bool) × Nat :=
  let is_neighbor := Function.update st.1 ii true
  if pGroups i ≠ pGroups ii then
    (Function.update is_neighbor ii false, st.2)
  else
    let d2 := pair_d2 m toDouble coord dist_type i ii
    let is_neighbor :=
      Function.update is_neighbor ii (accept m dist_type coord.ncol R d2 (is_neighbor ii))
    (is_neighbor, if is_neighbor ii then st.2 + 1 else st.2)

/-- The body of the collecting loop (lines 70-73) on the state `(pNeighbors, ix)`. -/
def collect_body (is_neighbor : Nat → Bool) (ii : Nat) (st : (Nat → Nat) × Nat) :
    (Nat → Nat) × Nat :=
  if is_neighbor ii then (Function.update st.1 st.2 (ii + 1), st.2 + 1) else st

/-- The body of the loop over `i` (lines 24-76) on the state `(is_neighbor, ret)`:
the flags are computed, counted, and the flagged indices are stored, 1-based, in a
fresh vector of length `num_neighbors`. -/
def point_body (m : CMath α) (toDouble : T → α) (coord : RMatrix T) (R : α)
    (pGroups : Nat → Int) (dist_type : Int) (i : Nat)
    (st : (Nat → Bool) × (Nat → List Nat)) : (Nat → Bool) × (Nat → List Nat) :=
  let scanned :=
    forLoop coord.nrow (scan_body m toDouble coord R pGroups dist_type i) (st.1, 0)
  let is_neighbor := scanned.1
  let num_neighbors := scanned.2
  let collected :=
    forLoopWhile coord.nrow (fun c => decide (c.2 < num_neighbors))
      (collect_body is_neighbor) (fun _ => 0, 0)
  (is_neighbor, Function.update st.2 i (vecElems num_neighbors collected.1))

/-- The function `find_neighbors<T>`: the list of the `nrow` neighbor vectors. -/
def find_neighbors (m : CMath α) (toDouble : T → α) (coord : RMatrix T) (R : α)
    (pGroups : Nat → Int) (dist_type : Int) : List (List Nat) :=
  let final :=
    forLoop coord.nrow (point_body m toDouble coord R pGroups dist_type)
      (fun _ => false, fun _ => [])
  vecElems coord.nrow final.2

/-- The value that the loop over `ii` leaves in `is_neighbor[ii]` for the point `i`
(lines 26-61 for one pair). -/
def nb_flag (m : CMath α) (toDouble : T → α) (coord : RMatrix T) (R : α)
    (pGroups : Nat → Int) (dist_type : Int) (i ii : Nat) : Bool :=
  if pGroups i ≠ pGroups ii then false
  else accept m dist_type coord.ncol R (pair_d2 m toDouble coord dist_type i ii) true

end FindNeighbors

/-! ## `get_spatial_offsets` (spatial.cpp, lines 82-98) -/

section Offsets

variable {T : Type} [Sub T] [Zero T]

/-- The function `get_spatial_offsets<T>`.  `neighbors` is the integer vector, `k` the
center index; both are used as they are as row offsets into `coord`
(`pCoord[j * n + ii[i]]`, `pCoord[j * n + k]`).  The fresh matrix reads `0` until it is
written. -/
def get_spatial_offsets (coord : RMatrix T) (neighbors : List Nat) (k : Nat) : RMatrix T :=
  let nrow := neighbors.length
  let ncol := coord.ncol
  let n := coord.nrow
  let pOffsets :=
    forLoop nrow
      (fun i p =>
        forLoop ncol
          (fun j p =>
            Function.update p (j * nrow + i)
              (coord.ptr (j * n + neighbors.getD i 0) - coord.ptr (j * n + k)))
          p)
      (fun _ => 0)
  ⟨nrow, ncol, pOffsets⟩

end Offsets

/-! ## `get_spatial_weights` (spatial.cpp, lines 100-159) -/

section Weights

variable {α : Type} [LinearOrderedField α] {T1 T2 : Type} [Sub T1] [Zero T2] [DecidableEq T2]

/-- The loop over the dimensions (lines 116-123) for the row `i` of the offsets: the sum
of squares `d2` and the flag `is_center`. -/
def offset_row_scan (toDouble : T2 → α) (offsets : RMatrix T2) (i : Nat) : α × Bool :=
  forLoop offsets.ncol
    (fun j st =>
      let d1 := toDouble (offsets.ptr (j * offsets.nrow + i))
      (st.1 + d1 * d1, if offsets.ptr (j * offsets.nrow + i) ≠ 0 then false else st.2))
    (0, true)

/-- The first loop (lines 115-127) on the state `(k, pAlpha)`; `k` starts at `0`. -/
def alpha_loop (m : CMath α) (toDouble : T2 → α) (offsets : RMatrix T2) (sigma : α) :
    Nat × (Nat → α) :=
  let sigma2 := sigma * sigma
  forLoop offsets.nrow
    (fun i st =>
      let sc := offset_row_scan toDouble offsets i
      (if sc.2 then i else st.1, Function.update st.2 i (m.exp (-sc.1 / (2 * sigma2)))))
    (0, fun _ => 0)

/-- The loop over the features (lines 134-138): squared feature distance of the column `i`
of `x` to the column `k`. -/
def feature_d2 (toDouble : T1 → α) (x : RMatrix T1) (k i : Nat) : α :=
  forLoop x.nrow
    (fun j d2 =>
      let d1 := toDouble (x.ptr (i * x.nrow + j) - x.ptr (k * x.nrow + j))
      d2 + d1 * d1)
    0

/-- The comparison `d2 > max_d2`, where `none` is the initial value `R_NegInf`. -/
def gt_max (d2 : α) : Option α → Bool
  | none => true
  | some mx => decide (d2 > mx)

/-- The comparison `d2 < min_d2`, where `none` is the initial value `R_PosInf`. -/
def lt_min (d2 : α) : Option α → Bool
  | none => true
  | some mn => decide (d2 < mn)

/-- The second loop (lines 133-144) on the state `((max_d2, min_d2), pBeta)`. -/
def extrema_loop (toDouble : T1 → α) (x : RMatrix T1) (npixels k : Nat)
    (pBeta : Nat → α) : (Option α × Option α) × (Nat → α) :=
  forLoop npixels
    (fun i st =>
      let d2 := feature_d2 toDouble x k i
      let max_d2 := if gt_max d2 st.1.1 then some d2 else st.1.1
      let min_d2 := if lt_min d2 st.1.2 then some d2 else st.1.2
      ((max_d2, min_d2), Function.update st.2 i d2))
    ((none, none), pBeta)

/-- Lines 145-146: `lambda`.  With no pixel both extrema are still infinite and the source
computes a NaN that no iteration of the last loop reads; it is `0` here. -/
def bandwidth (m : CMath α) : Option α × Option α → α
  | (some max_d2, some min_d2) =>
    let lambda := (m.sqrt max_d2 - m.sqrt min_d2) / 2
    lambda * lambda
  | _ => 0

/-- The function `get_spatial_weights<T1, T2>`: the pair `(alpha, beta)`. -/
def get_spatial_weights (m : CMath α) (toDouble1 : T1 → α) (toDouble2 : T2 → α)
    (x : RMatrix T1) (offsets : RMatrix T2) (sigma : α) (bilateral : Bool) :
    List α × List α :=
  let npixels := offsets.nrow
  let first := alpha_loop m toDouble2 offsets sigma
  let k := first.1
  let pAlpha := first.2
  let pBeta : Nat → α :=
    if bilateral then
      let second := extrema_loop toDouble1 x npixels k (fun _ => 0)
      let lambda := bandwidth m second.1
      forLoop npixels
        (fun i p => Function.update p i (m.exp (-p i / (2 * lambda))))
        second.2
    else
      forLoop npixels (fun i p => Function.update p i 1) (fun _ => 0)
  (vecElems npixels pAlpha, vecElems npixels pBeta)

end Weights

/-! ## `get_spatial_distance` (spatial.cpp, lines 161-209) -/

section Distance

variable {α : Type} [LinearOrderedField α] {T1 T2 : Type} [Sub T1] [Sub T2]

/-- The loop over the spatial dimensions (lines 189-193): squared distance between the
row `ix` of `offsets` and the row `iy` of `ref_offsets`, over `ndims` dimensions. -/
def offset_pair_d2 (toDouble : T2 → α) (offsets ref_offsets : RMatrix T2) (ndims : Nat)
    (ix iy : Nat) : α :=
  forLoop ndims
    (fun k d2 =>
      let d1 := toDouble
        (offsets.ptr (k * offsets.nrow + ix) - ref_offsets.ptr (k * ref_offsets.nrow + iy))
      d2 + d1 * d1)
    0

/-- The function `get_spatial_distance<T1, T2>`: the vector `dist`.  The `i`-th element of
the list `weights` is the pair `(alpha, beta)` of data pointers, `offsets i` the `i`-th
offsets matrix; `dist2` is declared, with initial value `0`, in the body of the loop
over `i`. -/
def get_spatial_distance (m : CMath α) (toDouble1 : T1 → α) (toDouble2 : T2 → α)
    (x ref : RMatrix T1) (offsets : Nat → RMatrix T2) (ref_offsets : RMatrix T2)
    (weights : Nat → (Nat → α) × (Nat → α)) (ref_weights : (Nat → α) × (Nat → α))
    (neighbors : List (List Nat)) (tol_dist : α) : List α :=
  let ndims := ref_offsets.ncol
  let nfeatures := x.nrow
  let npixels := neighbors.length
  let pDist :=
    forLoop npixels
      (fun i pDist =>
        let pNb := fun ix => (neighbors.getD i []).getD ix 0
        let alpha := (weights i).1
        let beta := (weights i).2
        let ref_alpha := ref_weights.1
        let ref_beta := ref_weights.2
        let nx := (offsets i).nrow
        let ny := ref_offsets.nrow
        let dist2 :=
          forLoop nx
            (fun ix dist2 =>
              let ii := pNb ix - 1
              forLoop ny
                (fun iy dist2 =>
                  let d2 := offset_pair_d2 toDouble2 (offsets i) ref_offsets ndims ix iy
                  if d2 < tol_dist then
                    let alpha_i := alpha ix * ref_alpha iy
                    let beta_i := beta ix * ref_beta iy
                    let a_i := m.sqrt (alpha_i * beta_i)
                    forLoop nfeatures
                      (fun j dist2 =>
                        let dist1 := toDouble1
                          (x.ptr (ii * nfeatures + j) - ref.ptr (iy * nfeatures + j))
                        dist2 + a_i * dist1 * dist1)
                      dist2
                  else dist2)
                dist2)
            0
        Function.update pDist i (m.sqrt dist2))
      (fun _ => 0)
  vecElems npixels pDist

end Distance

/-! ## `get_spatial_scores` (spatial.cpp, lines 211-251) -/

section Scores

variable {α : Type} [LinearOrderedField α] {T1 T2 : Type}

/-- The loop of lines 233-234: the sum `auc` of the combined weights `alpha[l] * beta[l]`
over the `n` neighbors. -/
def weight_sum (alpha beta : Nat → α) (n : Nat) : α :=
  forLoop n (fun l auc => auc + alpha l * beta l) 0

/-- The function `get_spatial_scores<T1, T2>`: the `npixels x ncenters` matrix of scores.
The difference `pX[...] - pCenters[...]` of a `T1` and a `T2` is taken in `double`. -/
def get_spatial_scores (toDouble1 : T1 → α) (toDouble2 : T2 → α)
    (x : RMatrix T1) (centers : RMatrix T2) (weights : Nat → (Nat → α) × (Nat → α))
    (neighbors : List (List Nat)) (sd : Nat → α) : RMatrix α :=
  let nfeatures := x.nrow
  let npixels := neighbors.length
  let ncenters := centers.ncol
  let pScores :=
    forLoop npixels
      (fun i pScores =>
        let nb := neighbors.getD i []
        let alpha := (weights i).1
        let beta := (weights i).2
        let nneighbors := nb.length
        let auc := weight_sum alpha beta nneighbors
        forLoop ncenters
          (fun k pScores =>
            let pScores := Function.update pScores (k * npixels + i) 0
            forLoop nneighbors
              (fun l pScores =>
                let ii := nb.getD l 0 - 1
                let a_l := alpha l * beta l / auc
                let score_l :=
                  forLoop nfeatures
                    (fun j score_l =>
                      let dist := toDouble1 (x.ptr (ii * nfeatures + j))
                        - toDouble2 (centers.ptr (k * nfeatures + j))
                      score_l + (dist * dist) / (sd j * sd j))
                    0
                Function.update pScores (k * npixels + i)
                  (pScores (k * npixels + i) + a_l * score_l))
              pScores)
          pScores)
      (fun _ => 0)
  ⟨npixels, ncenters, pScores⟩

end Scores

/-! ## `get_spatial_filter` (spatial.cpp, lines 253-283) -/

section Filter

variable {α : Type} [LinearOrderedField α] {T : Type}

/-- The function `get_spatial_filter<T>`: the `nr x nc` matrix of smoothed features. -/
def get_spatial_filter (toDouble : T → α) (x : RMatrix T)
    (weights : Nat → (Nat → α) × (Nat → α)) (neighbors : List (List Nat)) : RMatrix α :=
  let nc := neighbors.length
  let nr := x.nrow
  let pY :=
    forLoop nc
      (fun i pY =>
        let alpha := (weights i).1
        let beta := (weights i).2
        let nb := neighbors.getD i []
        let K := nb.length
        let auc := weight_sum alpha beta K
        let pY := forLoop nr (fun j pY => Function.update pY (i * nr + j) 0) pY
        forLoop K
          (fun k pY =>
            let a_k := alpha k * beta k / auc
            forLoop nr
              (fun j pY =>
                Function.update pY (i * nr + j)
                  (pY (i * nr + j) + a_k * toDouble (x.ptr ((nb.getD k 0 - 1) * nr + j))))
              pY)
          pY)
      (fun _ => 0)
  ⟨nr, nc, pY⟩

end Filter

/-- The row `i` of an offsets matrix is zero in every dimension. -/
def zero_row {T : Type} [Zero T] (offsets : RMatrix T) (i : Nat) : Prop :=
  ∀ j, j < offsets.ncol → offsets.ptr (j * offsets.nrow + i) = 0

/-- The center index that the first loop of `get_spatial_weights` identifies, as a
property of `k`: the last zero row of the offsets matrix, or `0` when no row is zero. -/
def is_identified_center {T : Type} [Zero T] (offsets : RMatrix T) (k : Nat) : Prop :=
  (k < offsets.nrow ∧ zero_row offsets k ∧
      ∀ i, k < i → i < offsets.nrow → ¬ zero_row offsets i) ∨
  (k = 0 ∧ ∀ i, i < offsets.nrow → ¬ zero_row offsets i)

/-- Specification of the squared feature-space distance of the column `i` of the feature
matrix `x` to the column `k`. -/
def spec_feature_d2 {α : Type} [LinearOrderedField α] {T : Type} [Sub T]
    (toDouble : T → α) (x : RMatrix T) (k i : Nat) : α :=
  ∑ j ∈ Finset.range x.nrow, toDouble (x.ptr (i * x.nrow + j) - x.ptr (k * x.nrow + j)) ^ 2

/-- Specification of the squared norm of the row `i` of an offsets matrix. -/
def spec_offset_norm2 {α : Type} [LinearOrderedField α] {T : Type}
    (toDouble : T → α) (offsets : RMatrix T) (i : Nat) : α :=
  ∑ j ∈ Finset.range offsets.ncol, toDouble (offsets.ptr (j * offsets.nrow + i)) ^ 2

/-- Specification of the squared offset-to-offset distance between the row `ix` of
`offsets` and the row `iy` of `ref_offsets`. -/
def spec_offset_pair_d2 {α : Type} [LinearOrderedField α] {T : Type} [Sub T]
    (toDouble : T → α) (offsets ref_offsets : RMatrix T) (ix iy : Nat) : α :=
  ∑ k ∈ Finset.range ref_offsets.ncol,
    toDouble (offsets.ptr (k * offsets.nrow + ix)
      - ref_offsets.ptr (k * ref_offsets.nrow + iy)) ^ 2

/-- Specification of the distance test of the neighbor finder for the radial, manhattan
and chebyshev metrics, in the words of the specification: `diff j` is the difference of
the two points in dimension `j`; the distance is the square root of the sum of squares,
the sum of absolute values, or the maximum absolute value (0 when there is no
dimension). -/
def spec_within_radius (dist_type : Int) (ncol : Nat) (diff : Nat → ℝ) (R : ℝ) : Prop :=
  (dist_type = RADIAL → Real.sqrt (∑ j ∈ Finset.range ncol, diff j ^ 2) ≤ R) ∧
  (dist_type = MANHATTAN → ∑ j ∈ Finset.range ncol, |diff j| ≤ R) ∧
  (dist_type = CHEBYSHEV → (Finset.range ncol).fold max 0 (fun j => |diff j|) ≤ R)

/-- A pointer to the elements of a list (cells beyond the list read `d`). -/
def ptrOfList {T : Type} (d : T) (l : List T) : Nat → T := fun i => l.getD i d

/-- The coordinate matrix of the three points `(0,0)`, `(1,0)`, `(5,0)` (column-major). -/
def three_points (α : Type) [LinearOrderedField α] : RMatrix α :=
  ⟨3, 2, ptrOfList 0 [0, 1, 5, 0, 0, 0]⟩

/-- An offsets matrix of two neighbors in one dimension: offsets `0` and `3`. -/
def two_offsets (α : Type) [LinearOrderedField α] : RMatrix α :=
  ⟨2, 1, ptrOfList 0 [0, 3]⟩

/-- A feature matrix of one feature for two pixels: values `0` and `2`. -/
def two_features (α : Type) [LinearOrderedField α] : RMatrix α :=
  ⟨1, 2, ptrOfList 0 [0, 2]⟩

/-- The weight pairs of points whose alpha and beta values are all `1`. -/
def unit_weights (α : Type) [LinearOrderedField α] : Nat → (Nat → α) × (Nat → α) :=
  fun _ => (fun _ => 1, fun _ => 1)

/-- The neighbor vectors of two points: the first has the neighbors 1 and 2, the second
only itself. -/
def two_neighbors : List (List Nat) := [[1, 2], [2]]

/-- Entry `(i, j)` of a column-major R matrix. -/
def RMatrix.entry {T : Type} (M : RMatrix T) (i j : Nat) : T := M.ptr (j * M.nrow + i)

/-- The coordinate matrix of the two points `(0,0)` and `(1/4,0)` (column-major). -/
def near_points (α : Type) [LinearOrderedField α] : RMatrix α :=
  ⟨2, 2, ptrOfList 0 [0, 1 / 4, 0, 0]⟩

/-- The integer coordinate matrix of the two points `(0,0)` and `(3,4)` (column-major). -/
def int_points : RMatrix Int := ⟨2, 2, ptrOfList 0 [0, 3, 0, 4]⟩

/-- An offsets matrix of three neighbors in one dimension whose first two rows are zero:
offsets `0`, `0` and `3`. -/
def dup_offsets (α : Type) [LinearOrderedField α] : RMatrix α :=
  ⟨3, 1, ptrOfList 0 [0, 0, 3]⟩

/-- A feature matrix of one feature for three pixels: values `5`, `1` and `2`. -/
def dup_features (α : Type) [LinearOrderedField α] : RMatrix α :=
  ⟨1, 3, ptrOfList 0 [5, 1, 2]⟩

/-- A feature matrix of one feature for two pixels with the same value `7`. -/
def same_features (α : Type) [LinearOrderedField α] : RMatrix α :=
  ⟨1, 2, ptrOfList 0 [7, 7]⟩

/-- An offsets matrix without rows (an empty neighbor set) in one dimension. -/
def no_offsets (α : Type) [LinearOrderedField α] : RMatrix α :=
  ⟨0, 1, ptrOfList 0 []⟩

/-- Properties of `exp` and `sqrt` that hold of the C library on IEEE doubles as well as of
the real functions: `exp` is never negative, it is at most 1 on non-positive arguments and
`exp(0) = 1`; `sqrt(0) = 0` and `sqrt` is positive on positive arguments.  An `exp` that
underflows to 0 and a `sqrt` that rounds its result have them. -/
structure CMath.IsRounded {α : Type} [LinearOrderedField α] (m : CMath α) : Prop where
  exp_nonneg : ∀ x : α, 0 ≤ m.exp x
  exp_le_one : ∀ x : α, x ≤ 0 → m.exp x ≤ 1
  exp_zero : m.exp 0 = 1
  sqrt_zero : m.sqrt 0 = 0
  sqrt_pos : ∀ x : α, 0 < x → 0 < m.sqrt x

/-- The library `m` with the underflow of the `exp` of IEEE doubles: `exp(x)` is `0` for
`x <= -746` (the least positive double is about `e^-744.44`, and `exp(-746.0)` is `0.0`). -/
def with_underflow {α : Type} [LinearOrderedField α] (m : CMath α) : CMath α :=
  { m with exp := fun x => if x ≤ -746 then 0 else m.exp x }

/-- An offsets matrix of two neighbors in one dimension: offsets `0` and `40`. -/
def far_offsets (α : Type) [LinearOrderedField α] : RMatrix α :=
  ⟨2, 1, ptrOfList 0 [0, 40]⟩

/-- The arithmetic of doubles that `get_spatial_filter` uses: `+`, `*` and `/`.  With the
operations of the field it is exact arithmetic (`exact_ops`); with operations that round
their result it is the arithmetic of IEEE doubles. -/
structure DoubleOps (α : Type) where
  add : α → α → α
  mul : α → α → α
  div : α → α → α

/-- Exact arithmetic: the operations of the field. -/
def exact_ops (α : Type) [LinearOrderedField α] : DoubleOps α :=
  ⟨fun a b => a + b, fun a b => a * b, fun a b => a / b⟩

/-- The function `get_spatial_filter<T>` (spatial.cpp, lines 253-283) with the arithmetic
`ops` in place of the exact operations: `auc += alpha[k] * beta[k]`,
`a_k = alpha[k] * beta[k] / auc` and `pY[...] += a_k * pX[...]`. -/
def get_spatial_filter_ops {α : Type} [Zero α] {T : Type} (ops : DoubleOps α)
    (toDouble : T → α) (x : RMatrix T) (weights : Nat → (Nat → α) × (Nat → α))
    (neighbors : List (List Nat)) : RMatrix α :=
  let nc := neighbors.length
  let nr := x.nrow
  let pY :=
    forLoop nc
      (fun i pY =>
        let alpha := (weights i).1
        let beta := (weights i).2
        let nb := neighbors.getD i []
        let K := nb.length
        let auc := forLoop K (fun k auc => ops.add auc (ops.mul (alpha k) (beta k))) 0
        let pY := forLoop nr (fun j pY => Function.update pY (i * nr + j) 0) pY
        forLoop K
          (fun k pY =>
            let a_k := ops.div (ops.mul (alpha k) (beta k)) auc
            forLoop nr
              (fun j pY =>
                Function.update pY (i * nr + j)
                  (ops.add (pY (i * nr + j))
                    (ops.mul a_k (toDouble (x.ptr ((nb.getD k 0 - 1) * nr + j))))))
              pY)
          pY)
      (fun _ => 0)
  ⟨nr, nc, pY⟩

/-- The double nearest to `1/3`, the value of `1.0 / 3.0`:
`0.3333333333333333 = 6004799503160661 / 2^54`. -/
def third_double : ℚ := 6004799503160661 / 18014398509481984

/-- The double nearest to `third_double * 0.875`, the value of `(1.0 / 3.0) * 0.875`:
`0.29166666666666663 = 2627099782632789 / 2^53`. -/
def term_double : ℚ := 2627099782632789 / 9007199254740992

/-- The operations of IEEE doubles on the operands that occur when three neighbors of
value `0.875` are averaged with unit weights: the quotient `1.0 / 3.0` and the product
`(1.0 / 3.0) * 0.875` are rounded to the nearest double, every other operation that occurs
(on `0`, `1`, `2`, `3` and the sums of the terms) is exact. -/
def ieee_ops_example : DoubleOps ℚ where
  add := fun a b => a + b
  mul := fun a b => if a = third_double ∧ b = 7 / 8 then term_double else a * b
  div := fun a b => if a = 1 ∧ b = 3 then third_double else a / b

/-- A feature matrix of one feature for three pixels with the same value `0.875`. -/
def eighths_features (α : Type) [LinearOrderedField α] : RMatrix α :=
  ⟨1, 3, ptrOfList 0 [7 / 8, 7 / 8, 7 / 8]⟩

/-! ## Loop lemmas -/

theorem forLoop_zero {σ : Type} (body : Nat → σ → σ) (s : σ) : forLoop 0 body s = s := by
  simp [forLoop]

theorem forLoop_succ {σ : Type} (n : Nat) (body : Nat → σ → σ) (s : σ) :
    forLoop (n + 1) body s = body n (forLoop n body s) := by
  simp [forLoop, List.range_succ, List.foldl_append]

/-- A property that holds initially and is preserved by every executed iteration holds
after the loop. -/
theorem forLoop_invariant {σ : Type} (P : σ → Prop) (body : Nat → σ → σ) (n : Nat) (s : σ)
    (h0 : P s) (hstep : ∀ i, i < n → ∀ st, P st → P (body i st)) : P (forLoop n body s) := by
  induction n with
  | zero => simpa [forLoop_zero] using h0
  | succ n ih =>
    rw [forLoop_succ]
    exact hstep n (Nat.lt_succ_self n) _ (ih (fun i hi => hstep i (Nat.lt_succ_of_lt hi)))

/-- A loop whose body adds `f i` to the accumulator computes a finite sum. -/
theorem forLoop_add {α : Type} [AddCommMonoid α] (f : Nat → α) (n : Nat) (a : α) :
    forLoop n (fun i acc => acc + f i) a = a + ∑ i ∈ Finset.range n, f i := by
  induction n with
  | zero => simp [forLoop_zero]
  | succ n ih => rw [forLoop_succ, ih, Finset.sum_range_succ, add_assoc]

/-- A loop whose body is, on every accumulator, the addition of `f i`. -/
theorem forLoop_add_of {α : Type} [AddCommMonoid α] (body : Nat → α → α) (f : Nat → α)
    (h : ∀ i acc, body i acc = acc + f i) (n : Nat) (a : α) :
    forLoop n body a = a + ∑ i ∈ Finset.range n, f i := by
  have hb : body = fun i acc => acc + f i := by
    funext i acc; exact h i acc
  rw [hb, forLoop_add]

/-- A loop whose executed iterations are, on every accumulator, the addition of `f i`. -/
theorem forLoop_add_of_lt {α : Type} [AddCommMonoid α] (body : Nat → α → α) (f : Nat → α)
    (n : Nat) (h : ∀ i, i < n → ∀ acc, body i acc = acc + f i) (a : α) :
    forLoop n body a = a + ∑ i ∈ Finset.range n, f i := by
  induction n with
  | zero => simp [forLoop_zero]
  | succ n ih =>
    rw [forLoop_succ, ih (fun i hi => h i (Nat.lt_succ_of_lt hi)), h n (Nat.lt_succ_self n),
      Finset.sum_range_succ, add_assoc]

/-- A loop whose body replaces the accumulator by a larger `f i` computes a maximum. -/
theorem forLoop_max {α : Type} [LinearOrder α] (f : Nat → α) (n : Nat) (a : α) :
    forLoop n (fun i acc => if f i > acc then f i else acc) a
      = (Finset.range n).fold max a f := by
  induction n with
  | zero => simp [forLoop_zero]
  | succ n ih =>
    rw [forLoop_succ, ih, Finset.range_succ, Finset.fold_insert Finset.not_mem_range_self]
    by_cases h : f n > (Finset.range n).fold max a f
    · rw [if_pos h, max_eq_left (le_of_lt h)]
    · rw [if_neg h, max_eq_right (not_lt.mp h)]

/-- A loop that stores, at iteration `i`, a state-independent value `v i` in cell `i`
of the second component. -/
theorem forLoop_store {σ β : Type} (body : Nat → σ × (Nat → β) → σ × (Nat → β))
    (v : Nat → β)
    (h : ∀ i st, (body i st).2 = Function.update st.2 i (v i)) (n : Nat)
    (s : σ × (Nat → β)) (p : Nat) :
    (forLoop n body s).2 p = if p < n then v p else s.2 p := by
  induction n with
  | zero => simp [forLoop_zero]
  | succ n ih =>
    rw [forLoop_succ, h]
    by_cases hp : p = n
    · subst hp; simp
    · rw [Function.update_noteq hp, ih]
      by_cases h1 : p < n
      · simp [h1, Nat.lt_succ_of_lt h1]
      · have h2 : ¬ p < n + 1 := by omega
        simp [h1, h2]

/-- A loop that stores, at iteration `i`, a value `v i` in the cell `i`. -/
theorem forLoop_write {β : Type} (body : Nat → (Nat → β) → (Nat → β)) (v : Nat → β)
    (h : ∀ i q, body i q = Function.update q i (v i)) (n : Nat) (mem : Nat → β) (p : Nat) :
    forLoop n body mem p = if p < n then v p else mem p := by
  induction n with
  | zero => simp [forLoop_zero]
  | succ n ih =>
    rw [forLoop_succ, h]
    by_cases hp : p = n
    · subst hp; simp
    · rw [Function.update_noteq hp, ih]
      by_cases h1 : p < n
      · simp [h1, Nat.lt_succ_of_lt h1]
      · have h2 : ¬ p < n + 1 := by omega
        simp [h1, h2]

/-- A cell that no iteration changes keeps its contents. -/
theorem forLoop_keep {β : Type} (body : Nat → (Nat → β) → (Nat → β)) (n : Nat)
    (mem : Nat → β) (p : Nat) (h : ∀ i, i < n → ∀ q : Nat → β, body i q p = q p) :
    forLoop n body mem p = mem p := by
  apply forLoop_invariant (fun q : Nat → β => q p = mem p)
  · rfl
  · intro i hi q hq
    show body i q p = mem p
    rw [h i hi q, hq]

/-- A cell that iteration `i` sets to `v`, and that no later iteration changes, holds `v`
after the loop. -/
theorem forLoop_cell {β : Type} (body : Nat → (Nat → β) → (Nat → β)) (n : Nat)
    (mem : Nat → β) (p i : Nat) (v : β) (hi : i < n)
    (hwrite : ∀ q : Nat → β, body i q p = v)
    (hkeep : ∀ i2, i < i2 → i2 < n → ∀ q : Nat → β, body i2 q p = q p) :
    forLoop n body mem p = v := by
  induction n with
  | zero => omega
  | succ n ih =>
    rw [forLoop_succ]
    by_cases hin : i = n
    · subst hin; exact hwrite _
    · have hlt : i < n := by omega
      rw [hkeep n hlt (Nat.lt_succ_self n)]
      exact ih hlt (fun i2 h1 h2 => hkeep i2 h1 (Nat.lt_succ_of_lt h2))

/-- A loop that adds `f l` to the cell `c` adds the finite sum to that cell. -/
theorem forLoop_accum_cell {α : Type} [AddCommMonoid α] (c : Nat) (f : Nat → α) (n : Nat)
    (mem : Nat → α) :
    forLoop n (fun l q => Function.update q c (q c + f l)) mem
      = Function.update mem c (mem c + ∑ l ∈ Finset.range n, f l) := by
  induction n with
  | zero => simp [forLoop_zero]
  | succ n ih =>
    rw [forLoop_succ, ih, Finset.sum_range_succ]
    simp [add_assoc]

/-- A loop that replaces the cell `i` by `g` of its contents, for each `i < n`. -/
theorem forLoop_map_cells {β : Type} (g : β → β) (n : Nat) (mem : Nat → β) (p : Nat) :
    forLoop n (fun i q => Function.update q i (g (q i))) mem p
      = if p < n then g (mem p) else mem p := by
  induction n with
  | zero => simp [forLoop_zero]
  | succ n ih =>
    rw [forLoop_succ]
    by_cases hp : p = n
    · subst hp
      simp only [Function.update_same, ih, Nat.lt_irrefl, if_false, Nat.lt_succ_self, if_true]
    · rw [Function.update_noteq hp, ih]
      by_cases h1 : p < n
      · simp [h1, Nat.lt_succ_of_lt h1]
      · have h2 : ¬ p < n + 1 := by omega
        simp [h1, h2]

/-- Column-major cells of distinct in-range positions are distinct. -/
theorem cell_inj (n i i2 j j2 : Nat) (hi : i < n) (hi2 : i2 < n)
    (h : j2 * n + i2 = j * n + i) : i2 = i ∧ j2 = j := by
  have hmod : (i2 + j2 * n) % n = (i + j * n) % n := by
    rw [Nat.add_comm i2, Nat.add_comm i, h]
  rw [Nat.add_mul_mod_self_right, Nat.add_mul_mod_self_right, Nat.mod_eq_of_lt hi,
    Nat.mod_eq_of_lt hi2] at hmod
  subst hmod
  have hmul : j2 * n = j * n := Nat.add_right_cancel h
  exact ⟨rfl, Nat.eq_of_mul_eq_mul_right (by omega) hmul⟩

/-- Reading back the elements of a list through `List.getD`. -/
theorem vecElems_getD {T : Type} (l : List T) (d : T) (p : Nat → T)
    (h : ∀ k, k < l.length → p k = l.getD k d) : vecElems l.length p = l := by
  apply List.ext_getElem
  · simp [vecElems]
  · intro k h1 h2
    simp only [vecElems, List.getElem_map, List.getElem_range]
    rw [h k h2, List.getD_eq_getElem _ _ h2]

/-! ## `find_neighbors`: the loops compute a filter of the index range -/

section FindNeighborsLemmas

variable {α : Type} [LinearOrderedField α] {T : Type} [Sub T]

theorem scan_body_eq (m : CMath α) (toDouble : T → α) (coord : RMatrix T) (R : α)
    (pGroups : Nat → Int) (dist_type : Int) (i ii : Nat) (st : (Nat → Bool) × Nat) :
    scan_body m toDouble coord R pGroups dist_type i ii st
      = (Function.update st.1 ii (nb_flag m toDouble coord R pGroups dist_type i ii),
         if nb_flag m toDouble coord R pGroups dist_type i ii then st.2 + 1 else st.2) := by
  unfold scan_body nb_flag
  by_cases hg : pGroups i ≠ pGroups ii
  · simp [hg]
  · simp [hg]

/-- After the scanning loop, the first `n` flags are the decisions `f` and the counter has
grown by the number of accepted indices. -/
theorem scan_loop (f : Nat → Bool) (body : Nat → (Nat → Bool) × Nat → (Nat → Bool) × Nat)
    (hb : ∀ ii st, body ii st = (Function.update st.1 ii (f ii), if f ii then st.2 + 1 else st.2))
    (n : Nat) (s : (Nat → Bool) × Nat) :
    (∀ p, (forLoop n body s).1 p = if p < n then f p else s.1 p) ∧
    (forLoop n body s).2 = s.2 + ((List.range n).filter f).length := by
  induction n with
  | zero => simp [forLoop_zero]
  | succ n ih =>
    rw [forLoop_succ, hb]
    refine ⟨?_, ?_⟩
    · intro p
      by_cases hp : p = n
      · subst hp; simp
      · simp only [Function.update_noteq hp, ih.1 p]
        by_cases h1 : p < n
        · simp [h1, Nat.lt_succ_of_lt h1]
        · have h2 : ¬ p < n + 1 := by omega
          simp [h1, h2]
    · simp only [ih.2, List.range_succ, List.filter_append, List.length_append]
      by_cases hf : f n = true
      · simp [hf, add_assoc]
      · simp [hf]

/-- Invariant of the collecting loop, started at index `i` with `ix` stored cells: the
cells below `num` hold the old contents followed by the accepted indices, 1-based. -/
theorem collect_loop (f : Nat → Bool) (num : Nat) :
    ∀ (rem i : Nat) (mem : Nat → Nat) (ix p : Nat), p < num →
      (forLoopWhileFrom (fun c : (Nat → Nat) × Nat => decide (c.2 < num))
          (collect_body f) rem i (mem, ix)).1 p
        = if p < ix then mem p
          else (((List.range' i rem).filter f).map (· + 1)).getD (p - ix) (mem p) := by
  intro rem
  induction rem with
  | zero => intro i mem ix p _; simp [forLoopWhileFrom]
  | succ rem ih =>
    intro i mem ix p hp
    unfold forLoopWhileFrom
    by_cases hc : ix < num
    · simp only [hc, decide_True, if_true]
      by_cases hf : f i = true
      · simp only [collect_body, hf, if_true]
        rw [ih (i + 1) _ (ix + 1) p hp]
        have hl : ((List.range' i (rem + 1)).filter f).map (· + 1)
            = (i + 1) :: ((List.range' (i + 1) rem).filter f).map (· + 1) := by
          simp [List.range', hf]
        rw [hl]
        rcases Nat.lt_trichotomy p ix with h | h | h
        · have h1 : p < ix + 1 := by omega
          have h2 : p ≠ ix := by omega
          simp [h, h1, Function.update_noteq h2]
        · subst h; simp
        · have h1 : ¬ p < ix + 1 := by omega
          have h2 : ¬ p < ix := by omega
          have h3 : p ≠ ix := by omega
          have h4 : p - ix = (p - (ix + 1)) + 1 := by omega
          simp only [h1, h2, if_false, Function.update_noteq h3]
          rw [h4, List.getD_cons_succ]
      · have hl : ((List.range' i (rem + 1)).filter f).map (· + 1)
            = ((List.range' (i + 1) rem).filter f).map (· + 1) := by
          simp [List.range', hf]
        simp only [collect_body, hf]
        rw [hl]
        exact ih (i + 1) mem ix p hp
    · have h1 : p < ix := by omega
      simp [hc, h1]

/-- The 1-based neighbor vector of the point `i`, as a filter of the index range. -/
theorem point_body_eq (m : CMath α) (toDouble : T → α) (coord : RMatrix T) (R : α)
    (pGroups : Nat → Int) (dist_type : Int) (i : Nat)
    (st : (Nat → Bool) × (Nat → List Nat)) :
    (point_body m toDouble coord R pGroups dist_type i st).2
      = Function.update st.2 i
          (((List.range coord.nrow).filter
              (nb_flag m toDouble coord R pGroups dist_type i)).map (· + 1)) := by
  have hs := scan_loop (nb_flag m toDouble coord R pGroups dist_type i)
    (scan_body m toDouble coord R pGroups dist_type i)
    (scan_body_eq m toDouble coord R pGroups dist_type i) coord.nrow (st.1, 0)
  obtain ⟨hflag, hnum⟩ := hs
  simp only [point_body]
  set sc := forLoop coord.nrow (scan_body m toDouble coord R pGroups dist_type i) (st.1, 0)
    with hsc
  have hfilter : (List.range coord.nrow).filter sc.1
      = (List.range coord.nrow).filter (nb_flag m toDouble coord R pGroups dist_type i) := by
    apply List.filter_congr
    intro x hx
    rw [hflag x, if_pos (List.mem_range.mp hx)]
  have hlen : sc.2 = (((List.range coord.nrow).filter sc.1).map (· + 1)).length := by
    rw [hnum, hfilter]; simp
  have hvec : vecElems sc.2
      (forLoopWhile coord.nrow (fun c : (Nat → Nat) × Nat => decide (c.2 < sc.2))
        (collect_body sc.1) (fun _ => 0, 0)).1
      = ((List.range coord.nrow).filter sc.1).map (· + 1) := by
    have hcells : ∀ k, k < (((List.range coord.nrow).filter sc.1).map (· + 1)).length →
        (forLoopWhile coord.nrow (fun c : (Nat → Nat) × Nat => decide (c.2 < sc.2))
          (collect_body sc.1) (fun _ => 0, 0)).1 k
          = (((List.range coord.nrow).filter sc.1).map (· + 1)).getD k 0 := by
      intro k hk
      have := collect_loop sc.1 sc.2 coord.nrow 0 (fun _ => 0) 0 k (by rw [hlen]; exact hk)
      simp only [forLoopWhile]
      rw [this]
      simp [List.range_eq_range']
    have := vecElems_getD _ 0 _ hcells
    rw [← hlen] at this
    exact this
  rw [hvec, hfilter]

/-- The loops of `find_neighbors` compute, for every point, the accepted indices in
ascending scan order, 1-based. -/
theorem find_neighbors_eq (m : CMath α) (toDouble : T → α) (coord : RMatrix T) (R : α)
    (pGroups : Nat → Int) (dist_type : Int) :
    find_neighbors m toDouble coord R pGroups dist_type
      = (List.range coord.nrow).map (fun i =>
          ((List.range coord.nrow).filter
            (nb_flag m toDouble coord R pGroups dist_type i)).map (· + 1)) := by
  unfold find_neighbors vecElems
  apply List.map_congr_left
  intro i hi
  rw [forLoop_store _ _ (point_body_eq m toDouble coord R pGroups dist_type)]
  rw [if_pos (List.mem_range.mp hi)]

theorem find_neighbors_length (m : CMath α) (toDouble : T → α) (coord : RMatrix T) (R : α)
    (pGroups : Nat → Int) (dist_type : Int) :
    (find_neighbors m toDouble coord R pGroups dist_type).length = coord.nrow := by
  simp [find_neighbors_eq]

theorem find_neighbors_getD (m : CMath α) (toDouble : T → α) (coord : RMatrix T) (R : α)
    (pGroups : Nat → Int) (dist_type : Int) (i : Nat) (hi : i < coord.nrow) :
    (find_neighbors m toDouble coord R pGroups dist_type).getD i []
      = ((List.range coord.nrow).filter
          (nb_flag m toDouble coord R pGroups dist_type i)).map (· + 1) := by
  rw [find_neighbors_eq, List.getD_eq_getElem _ _ (by simpa using hi)]
  simp

/-- Membership in the neighbor vector of an in-range point. -/
theorem mem_find_neighbors (m : CMath α) (toDouble : T → α) (coord : RMatrix T) (R : α)
    (pGroups : Nat → Int) (dist_type : Int) (i : Nat) (hi : i < coord.nrow) (x : Nat) :
    x ∈ (find_neighbors m toDouble coord R pGroups dist_type).getD i []
      ↔ ∃ ii, ii < coord.nrow ∧ x = ii + 1 ∧
          nb_flag m toDouble coord R pGroups dist_type i ii = true := by
  rw [find_neighbors_getD m toDouble coord R pGroups dist_type i hi]
  simp only [List.mem_map, List.mem_filter, List.mem_range]
  constructor
  · rintro ⟨ii, ⟨h1, h2⟩, rfl⟩
    exact ⟨ii, h1, rfl, h2⟩
  · rintro ⟨ii, h1, rfl, h2⟩
    exact ⟨ii, ⟨h1, h2⟩, rfl⟩

theorem sorted_find_neighbors (m : CMath α) (toDouble : T → α) (coord : RMatrix T) (R : α)
    (pGroups : Nat → Int) (dist_type : Int) (i : Nat) (hi : i < coord.nrow) :
    ((find_neighbors m toDouble coord R pGroups dist_type).getD i []).Sorted (· < ·) := by
  rw [find_neighbors_getD m toDouble coord R pGroups dist_type i hi]
  apply List.Pairwise.map (R := (· < ·))
  · intro a b hab; exact Nat.succ_lt_succ hab
  · exact List.Pairwise.filter _ (List.pairwise_lt_range _)

theorem pair_d2_radial (m : CMath α) (toDouble : T → α) (coord : RMatrix T) (i ii : Nat) :
    pair_d2 m toDouble coord RADIAL i ii
      = ∑ j ∈ Finset.range coord.ncol, toDouble (coord.entry i j - coord.entry ii j) ^ 2 := by
  unfold pair_d2
  have h := forLoop_add
    (fun j => toDouble (coord.entry i j - coord.entry ii j) ^ 2) coord.ncol 0
  rw [zero_add] at h
  rw [← h]
  congr 1
  funext j d2
  simp [accumulate, RMatrix.entry, sq]

theorem pair_d2_manhattan (m : CMath α) (toDouble : T → α) (coord : RMatrix T) (i ii : Nat) :
    pair_d2 m toDouble coord MANHATTAN i ii
      = ∑ j ∈ Finset.range coord.ncol, |toDouble (coord.entry i j - coord.entry ii j)| := by
  unfold pair_d2
  have h := forLoop_add
    (fun j => |toDouble (coord.entry i j - coord.entry ii j)|) coord.ncol 0
  rw [zero_add] at h
  rw [← h]
  congr 1

theorem pair_d2_chebyshev (m : CMath α) (toDouble : T → α) (coord : RMatrix T) (i ii : Nat) :
    pair_d2 m toDouble coord CHEBYSHEV i ii
      = (Finset.range coord.ncol).fold max 0
          (fun j => |toDouble (coord.entry i j - coord.entry ii j)|) := by
  unfold pair_d2
  rw [← forLoop_max]
  congr 1

end FindNeighborsLemmas

/-! ## Claims on `find_neighbors` -/

section FindNeighborsClaims

variable {T : Type} [Sub T]

/-- For an ideal `<cmath>` and the radial, manhattan and chebyshev metrics, the flag of
the pair `(i, ii)` is set exactly when the groups agree and the distance is within `R`. -/
theorem nb_flag_iff (m : CMath ℝ) (hm : m.IsIdeal) (toDouble : T → ℝ) (coord : RMatrix T)
    (R : ℝ) (pGroups : Nat → Int) (dist_type : Int)
    (hd : dist_type = RADIAL ∨ dist_type = MANHATTAN ∨ dist_type = CHEBYSHEV) (i ii : Nat) :
    nb_flag m toDouble coord R pGroups dist_type i ii = true
      ↔ pGroups ii = pGroups i ∧
        spec_within_radius dist_type coord.ncol
          (fun j => toDouble (coord.entry i j - coord.entry ii j)) R := by
  unfold nb_flag spec_within_radius
  by_cases hg : pGroups i = pGroups ii
  · have hg2 : pGroups ii = pGroups i := hg.symm
    rcases hd with h | h | h
    · subst h
      have hnn : (0 : ℝ) ≤ ∑ j ∈ Finset.range coord.ncol,
          toDouble (coord.entry i j - coord.entry ii j) ^ 2 :=
        Finset.sum_nonneg (fun j _ => sq_nonneg _)
      rw [pair_d2_radial]
      simp [hg, accept, hm.sqrt_eq _ hnn, RADIAL, MANHATTAN, CHEBYSHEV]
    · subst h
      rw [pair_d2_manhattan]
      simp [hg, accept, RADIAL, MANHATTAN, CHEBYSHEV]
    · subst h
      rw [pair_d2_chebyshev]
      simp [hg, accept, RADIAL, MANHATTAN, CHEBYSHEV, MINKOWSKI]
  · have hg2 : ¬ pGroups ii = pGroups i := fun h => hg h.symm
    simp [hg, hg2]

/-- Claim C1. For the radial, manhattan and chebyshev metrics, every coordinate matrix, group
vector and radius `R`, `find_neighbors` returns one vector per point, and the vector of
the point `i` is strictly ascending and contains exactly the 1-based indices `ii + 1` of
the points `ii` with `group[ii] = group[i]` whose distance to `i` (square root of the sum
of squared differences, sum of absolute differences, or maximum absolute difference) is
at most `R`. -/
theorem find_neighbors_exact (m : CMath ℝ) (hm : m.IsIdeal) (toDouble : T → ℝ)
    (coord : RMatrix T) (R : ℝ) (pGroups : Nat → Int) (dist_type : Int)
    (hd : dist_type = RADIAL ∨ dist_type = MANHATTAN ∨ dist_type = CHEBYSHEV) :
    (find_neighbors m toDouble coord R pGroups dist_type).length = coord.nrow ∧
    ∀ i, i < coord.nrow →
      ((find_neighbors m toDouble coord R pGroups dist_type).getD i []).Sorted (· < ·) ∧
      ∀ x, x ∈ (find_neighbors m toDouble coord R pGroups dist_type).getD i []
        ↔ ∃ ii, ii < coord.nrow ∧ x = ii + 1 ∧ pGroups ii = pGroups i ∧
            spec_within_radius dist_type coord.ncol
              (fun j => toDouble (coord.entry i j - coord.entry ii j)) R := by
  refine ⟨find_neighbors_length m toDouble coord R pGroups dist_type, ?_⟩
  intro i hi
  refine ⟨sorted_find_neighbors m toDouble coord R pGroups dist_type i hi, ?_⟩
  intro x
  rw [mem_find_neighbors m toDouble coord R pGroups dist_type i hi]
  constructor
  · rintro ⟨ii, h1, h2, h3⟩
    exact ⟨ii, h1, h2, (nb_flag_iff m hm toDouble coord R pGroups dist_type hd i ii).mp h3⟩
  · rintro ⟨ii, h1, h2, h3⟩
    exact ⟨ii, h1, h2, (nb_flag_iff m hm toDouble coord R pGroups dist_type hd i ii).mpr h3⟩

/-- Witness of C1: the points `(0,0)`, `(1,0)`, `(5,0)` in one group, radial metric,
`R = 2`; the returned vectors are `[1, 2]`, `[1, 2]`, `[3]`. -/
theorem find_neighbors_exact_witness :
    ∃ m : CMath ℝ, m.IsIdeal ∧ (RADIAL = RADIAL ∨ RADIAL = MANHATTAN ∨ RADIAL = CHEBYSHEV) ∧
      find_neighbors m id (three_points ℝ) 2 (fun _ => 1) RADIAL = [[1, 2], [1, 2], [3]] ∧
      ((find_neighbors m id (three_points ℝ) 2 (fun _ => 1) RADIAL).length
          = (three_points ℝ).nrow ∧
        ∀ i, i < (three_points ℝ).nrow →
          ((find_neighbors m id (three_points ℝ) 2 (fun _ => 1) RADIAL).getD i []).Sorted
              (· < ·) ∧
          ∀ x, x ∈ (find_neighbors m id (three_points ℝ) 2 (fun _ => 1) RADIAL).getD i []
            ↔ ∃ ii, ii < (three_points ℝ).nrow ∧ x = ii + 1 ∧ (1 : Int) = 1 ∧
                spec_within_radius RADIAL (three_points ℝ).ncol
                  (fun j => id ((three_points ℝ).entry i j - (three_points ℝ).entry ii j))
                  2) := by
  have hm : (⟨Real.sqrt, Real.exp, fun x y => x ^ y, fun _ => 0⟩ : CMath ℝ).IsIdeal :=
    ⟨fun _ _ => rfl, fun _ => rfl, fun _ _ _ _ => rfl, fun _ _ => rfl⟩
  refine ⟨⟨Real.sqrt, Real.exp, fun x y => x ^ y, fun _ => 0⟩, hm, Or.inl rfl, ?_,
    find_neighbors_exact _ hm id (three_points ℝ) 2 (fun _ => 1) RADIAL (Or.inl rfl)⟩
  rw [find_neighbors_eq]
  have h25 : ¬ Real.sqrt 25 ≤ 2 := by
    rw [show (25 : ℝ) = 5 ^ 2 by norm_num, Real.sqrt_sq (by norm_num)]; norm_num
  have h16 : ¬ Real.sqrt 16 ≤ 2 := by
    rw [show (16 : ℝ) = 4 ^ 2 by norm_num, Real.sqrt_sq (by norm_num)]; norm_num
  simp [three_points, List.range_succ, nb_flag, accept, pair_d2, forLoop, accumulate,
    ptrOfList, RADIAL, List.filter_cons]
  norm_num [h25, h16, not_le.mp h16, not_le.mp h25]

/-- One dimension step on a zero difference leaves a zero accumulator at zero. -/
theorem accumulate_zero (m : CMath ℝ) (hm : m.IsIdeal) (dist_type : Int) (ncol : Nat)
    (hn : ncol ≠ 0) : accumulate m dist_type ncol 0 0 = 0 := by
  have hp : m.pow 0 (ncol : ℝ) = 0 := by
    rw [hm.pow_eq 0 _ le_rfl (Nat.cast_nonneg ncol)]
    exact Real.zero_rpow (Nat.cast_ne_zero.mpr hn)
  simp [accumulate, hp]

/-- The accumulator of a point against itself is zero. -/
theorem pair_d2_self (m : CMath ℝ) (hm : m.IsIdeal) (toDouble : T → ℝ)
    (hself : ∀ a : T, toDouble (a - a) = 0) (coord : RMatrix T) (dist_type : Int) (i : Nat) :
    pair_d2 m toDouble coord dist_type i i = 0 := by
  unfold pair_d2
  apply forLoop_invariant (fun d2 : ℝ => d2 = 0)
  · rfl
  · intro j hj st hst
    have hn : coord.ncol ≠ 0 := by omega
    simp only [hself, hst]
    exact accumulate_zero m hm dist_type coord.ncol hn

/-- A zero accumulator passes the final test of every metric for a non-negative radius. -/
theorem accept_zero (m : CMath ℝ) (hm : m.IsIdeal) (dist_type : Int) (ncol : Nat) (R : ℝ)
    (hR : 0 ≤ R) : accept m dist_type ncol R 0 true = true := by
  have hs : m.sqrt 0 = 0 := by rw [hm.sqrt_eq 0 le_rfl, Real.sqrt_zero]
  have hp : pow_inv_ncol m ncol 0 = 0 := by
    unfold pow_inv_ncol
    by_cases hn : ncol = 0
    · rw [if_pos hn]; exact hm.powInf_eq 0 (by simp)
    · rw [if_neg hn, hm.pow_eq 0 _ le_rfl (by positivity)]
      apply Real.zero_rpow
      have : (ncol : ℝ) ≠ 0 := Nat.cast_ne_zero.mpr hn
      exact one_div_ne_zero this
  simp [accept, hs, hp, hR]

/-- Claim C2. For every coordinate matrix, group vector, metric code (in particular the
codes 1 = radial, 2 = manhattan, 3 = minkowski, 4 = chebyshev) and every radius `R ≥ 0`,
the vector that `find_neighbors` returns for a point `i` contains the own index of `i`,
`i + 1` in the 1-based output. -/
theorem find_neighbors_self (m : CMath ℝ) (hm : m.IsIdeal) (toDouble : T → ℝ)
    (hself : ∀ a : T, toDouble (a - a) = 0) (coord : RMatrix T) (R : ℝ) (hR : 0 ≤ R)
    (pGroups : Nat → Int) (dist_type : Int) (i : Nat) (hi : i < coord.nrow) :
    i + 1 ∈ (find_neighbors m toDouble coord R pGroups dist_type).getD i [] := by
  rw [mem_find_neighbors m toDouble coord R pGroups dist_type i hi]
  refine ⟨i, hi, rfl, ?_⟩
  unfold nb_flag
  rw [pair_d2_self m hm toDouble hself coord dist_type i]
  simp [accept_zero m hm dist_type coord.ncol R hR]

/-- Witness of C2: the third of the three points, minkowski metric, `R = 0`. -/
theorem find_neighbors_self_witness :
    ∃ m : CMath ℝ, m.IsIdeal ∧ (∀ a : ℝ, id (a - a) = 0) ∧ (0 : ℝ) ≤ 0 ∧
      2 < (three_points ℝ).nrow ∧
      2 + 1 ∈ (find_neighbors m id (three_points ℝ) 0 (fun _ => 1) MINKOWSKI).getD 2 [] := by
  have hm : (⟨Real.sqrt, Real.exp, fun x y => x ^ y, fun _ => 0⟩ : CMath ℝ).IsIdeal :=
    ⟨fun _ _ => rfl, fun _ => rfl, fun _ _ _ _ => rfl, fun _ _ => rfl⟩
  have h2 : 2 < (three_points ℝ).nrow := by simp [three_points]
  exact ⟨_, hm, fun a => sub_self a, le_rfl, h2,
    find_neighbors_self _ hm id (fun a => sub_self a) (three_points ℝ) 0 le_rfl
      (fun _ => 1) MINKOWSKI 2 h2⟩

end FindNeighborsClaims

section FindNeighborsGeneric

variable {α : Type} [LinearOrderedField α] {T : Type} [Sub T]

/-- Claim C3. For every input and every metric code, every index in the vector that
`find_neighbors` returns for a point `i` is a valid 1-based index `x` and names a point
`x - 1` of the same group as `i`. -/
theorem find_neighbors_same_group (m : CMath α) (toDouble : T → α) (coord : RMatrix T)
    (R : α) (pGroups : Nat → Int) (dist_type : Int) (i : Nat) (hi : i < coord.nrow)
    (x : Nat) (hx : x ∈ (find_neighbors m toDouble coord R pGroups dist_type).getD i []) :
    1 ≤ x ∧ x ≤ coord.nrow ∧ pGroups (x - 1) = pGroups i := by
  rw [mem_find_neighbors m toDouble coord R pGroups dist_type i hi] at hx
  obtain ⟨ii, h1, rfl, h3⟩ := hx
  refine ⟨Nat.succ_le_succ (Nat.zero_le ii), h1, ?_⟩
  unfold nb_flag at h3
  by_cases hg : pGroups i = pGroups ii
  · simpa using hg.symm
  · simp [hg] at h3

/-- Witness of C3: three points with group labels 1, 2, 1 and the chebyshev metric; the
index 3 in the vector of the first point names a point of its group. -/
theorem find_neighbors_same_group_witness :
    0 < (three_points ℚ).nrow ∧
    3 ∈ (find_neighbors ⟨id, id, fun x _ => x, id⟩ id (three_points ℚ) 10
          (fun p => if p = 1 then 2 else 1) CHEBYSHEV).getD 0 [] ∧
    (1 ≤ 3 ∧ 3 ≤ (three_points ℚ).nrow ∧
      (fun p => if p = 1 then (2 : Int) else 1) (3 - 1)
        = (fun p => if p = 1 then (2 : Int) else 1) 0) := by
  have h0 : 0 < (three_points ℚ).nrow := by simp [three_points]
  have hx : 3 ∈ (find_neighbors ⟨id, id, fun x _ => x, id⟩ id (three_points ℚ) 10
      (fun p => if p = 1 then 2 else 1) CHEBYSHEV).getD 0 [] := by
    rw [find_neighbors_getD _ _ _ _ _ _ 0 h0]
    simp [three_points, List.range_succ, nb_flag, accept, pair_d2, forLoop, accumulate,
      ptrOfList, RADIAL, MANHATTAN, MINKOWSKI, CHEBYSHEV, List.filter_cons]
    norm_num
  exact ⟨h0, hx, find_neighbors_same_group _ id (three_points ℚ) 10 _ CHEBYSHEV 0 h0 3 hx⟩

/-- The final test is monotone in the radius. -/
theorem accept_mono (m : CMath α) (dist_type : Int) (ncol : Nat) (R1 R2 d2 : α)
    (hR : R1 ≤ R2) (cur : Bool) (h : accept m dist_type ncol R1 d2 cur = true) :
    accept m dist_type ncol R2 d2 cur = true := by
  unfold accept at h ⊢
  split_ifs at h ⊢ with h1 h2 h3 h4
  · exact decide_eq_true (le_trans (of_decide_eq_true h) hR)
  · exact decide_eq_true (le_trans (of_decide_eq_true h) hR)
  · exact decide_eq_true (le_trans (of_decide_eq_true h) hR)
  · exact decide_eq_true (le_trans (of_decide_eq_true h) hR)
  · exact h

/-- Claim C4. For every coordinate matrix and group vector, every metric code (in particular
radial, manhattan and chebyshev) and all radii `R1 < R2`, the vector that `find_neighbors`
returns for a point `i` at radius `R1` is a sub-sequence of the vector it returns at
radius `R2`. -/
theorem find_neighbors_mono_radius (m : CMath α) (toDouble : T → α) (coord : RMatrix T)
    (R1 R2 : α) (hR : R1 < R2) (pGroups : Nat → Int) (dist_type : Int) (i : Nat) :
    ((find_neighbors m toDouble coord R1 pGroups dist_type).getD i []).Sublist
      ((find_neighbors m toDouble coord R2 pGroups dist_type).getD i []) := by
  by_cases hi : i < coord.nrow
  · rw [find_neighbors_getD m toDouble coord R1 pGroups dist_type i hi,
      find_neighbors_getD m toDouble coord R2 pGroups dist_type i hi]
    apply List.Sublist.map
    apply List.monotone_filter_right
    intro ii h
    unfold nb_flag at h ⊢
    by_cases hg : pGroups i = pGroups ii
    · simp only [hg, ne_eq, not_true_eq_false, if_false] at h ⊢
      exact accept_mono m dist_type coord.ncol R1 R2 _ (le_of_lt hR) true h
    · simp [hg] at h
  · have h1 : (find_neighbors m toDouble coord R1 pGroups dist_type).length ≤ i := by
      rw [find_neighbors_length]; omega
    have h2 : (find_neighbors m toDouble coord R2 pGroups dist_type).length ≤ i := by
      rw [find_neighbors_length]; omega
    rw [List.getD_eq_default _ _ h1, List.getD_eq_default _ _ h2]

/-- Witness of C4: the three points, manhattan metric, radii 1 and 2. -/
theorem find_neighbors_mono_radius_witness :
    (1 : ℚ) < 2 ∧
    ((find_neighbors ⟨id, id, fun x _ => x, id⟩ id (three_points ℚ) 1 (fun _ => 1)
        MANHATTAN).getD 0 []).Sublist
      ((find_neighbors ⟨id, id, fun x _ => x, id⟩ id (three_points ℚ) 2 (fun _ => 1)
        MANHATTAN).getD 0 []) :=
  ⟨by norm_num,
    find_neighbors_mono_radius _ id (three_points ℚ) 1 2 (by norm_num) (fun _ => 1)
      MANHATTAN 0⟩

end FindNeighborsGeneric

/-! ## Claims on `get_spatial_offsets` -/

section OffsetsClaims

variable {T : Type} [Sub T] [Zero T]

/-- Claim C5, as amended. `get_spatial_offsets`, given the coordinate matrix, a vector of
0-based row indices and a 0-based center row `k`, returns a (vector length) x d matrix
whose entry `(i, j)` is the `j`-th coordinate of the row `neighbors[i]` minus the `j`-th
coordinate of the row `k`: the indices are used as they are, no 1-based index is
converted. -/
theorem get_spatial_offsets_entry (coord : RMatrix T) (neighbors : List Nat) (k : Nat)
    (i j : Nat) (hi : i < neighbors.length) (hj : j < coord.ncol) :
    (get_spatial_offsets coord neighbors k).nrow = neighbors.length ∧
    (get_spatial_offsets coord neighbors k).ncol = coord.ncol ∧
    (get_spatial_offsets coord neighbors k).entry i j
      = coord.entry (neighbors.getD i 0) j - coord.entry k j := by
  refine ⟨rfl, rfl, ?_⟩
  simp only [get_spatial_offsets, RMatrix.entry]
  apply forLoop_cell _ _ _ _ i _ hi
  · intro q
    apply forLoop_cell _ _ _ _ j _ hj
    · intro q2; simp
    · intro j2 h1 _ q2
      apply Function.update_noteq
      intro h
      have := (cell_inj neighbors.length i i j2 j hi hi h).2
      omega
  · intro i2 h1 h2 q
    apply forLoop_keep
    intro j2 _ q2
    apply Function.update_noteq
    intro h
    have := (cell_inj neighbors.length i2 i j2 j h2 hi h).1
    omega

/-- Witness of C5, as amended: coordinates 0, 1, 5, the 0-based rows `[0, 1]`, center 0. -/
theorem get_spatial_offsets_entry_witness :
    1 < [0, 1].length ∧ 0 < (⟨3, 1, ptrOfList 0 [0, 1, 5]⟩ : RMatrix Int).ncol ∧
    ((get_spatial_offsets (⟨3, 1, ptrOfList 0 [0, 1, 5]⟩ : RMatrix Int) [0, 1] 0).nrow
        = [0, 1].length ∧
      (get_spatial_offsets (⟨3, 1, ptrOfList 0 [0, 1, 5]⟩ : RMatrix Int) [0, 1] 0).ncol
        = (⟨3, 1, ptrOfList 0 [0, 1, 5]⟩ : RMatrix Int).ncol ∧
      (get_spatial_offsets (⟨3, 1, ptrOfList 0 [0, 1, 5]⟩ : RMatrix Int) [0, 1] 0).entry 1 0
        = (⟨3, 1, ptrOfList 0 [0, 1, 5]⟩ : RMatrix Int).entry ([0, 1].getD 1 0) 0
          - (⟨3, 1, ptrOfList 0 [0, 1, 5]⟩ : RMatrix Int).entry 0 0) :=
  ⟨by decide, by decide,
    get_spatial_offsets_entry (⟨3, 1, ptrOfList 0 [0, 1, 5]⟩ : RMatrix Int) [0, 1] 0 1 0
      (by decide) (by decide)⟩

/-- Claim C5 as stated fails. For the points with coordinates 0, 1, 5 and the 1-based
neighbor vector `[1, 2]` (the first two points) with center index `1`, the second row of
the result is `5 - 1 = 4`: the row after the named point minus the row `1`.  The claim
asks for the coordinate `1` of the point named by `2` minus the coordinate of the point
`k`, which is `1 - 0 = 1` when `k` is 1-based and `1 - 1 = 0` when `k` is 0-based. -/
theorem get_spatial_offsets_one_based_counterexample :
    (∀ x ∈ [1, 2], 1 ≤ x ∧ x ≤ (⟨3, 1, ptrOfList 0 [0, 1, 5]⟩ : RMatrix Int).nrow) ∧
    (get_spatial_offsets (⟨3, 1, ptrOfList 0 [0, 1, 5]⟩ : RMatrix Int) [1, 2] 1).entry 1 0
      = 4 ∧
    (⟨3, 1, ptrOfList 0 [0, 1, 5]⟩ : RMatrix Int).entry ([1, 2].getD 1 0 - 1) 0
      - (⟨3, 1, ptrOfList 0 [0, 1, 5]⟩ : RMatrix Int).entry (1 - 1) 0 = 1 ∧
    (⟨3, 1, ptrOfList 0 [0, 1, 5]⟩ : RMatrix Int).entry ([1, 2].getD 1 0 - 1) 0
      - (⟨3, 1, ptrOfList 0 [0, 1, 5]⟩ : RMatrix Int).entry 1 0 = 0 := by
  decide

end OffsetsClaims

/-! ## The identified center -/

section CenterLemmas

variable {T2 : Type} [Zero T2]

/-- The identified center is unique. -/
theorem is_identified_center_unique (offsets : RMatrix T2) (k1 k2 : Nat)
    (h1 : is_identified_center offsets k1) (h2 : is_identified_center offsets k2) :
    k1 = k2 := by
  rcases h1 with ⟨a1, a2, a3⟩ | ⟨a1, a2⟩ <;> rcases h2 with ⟨b1, b2, b3⟩ | ⟨b1, b2⟩
  · rcases Nat.lt_trichotomy k1 k2 with h | h | h
    · exact absurd b2 (a3 k2 h b1)
    · exact h
    · exact absurd a2 (b3 k1 h a1)
  · exact absurd a2 (b2 k1 a1)
  · exact absurd b2 (a2 k2 b1)
  · rw [a1, b1]

/-- The identified center is a row of a non-empty offsets matrix. -/
theorem is_identified_center_lt (offsets : RMatrix T2) (k : Nat)
    (h : is_identified_center offsets k) (hn : 0 < offsets.nrow) : k < offsets.nrow := by
  rcases h with ⟨a1, _, _⟩ | ⟨a1, _⟩
  · exact a1
  · omega

end CenterLemmas

/-! ## `get_spatial_weights`: what the loops compute -/

section WeightsLemmas

variable {α : Type} [LinearOrderedField α] {T1 T2 : Type} [Sub T1] [Zero T2] [DecidableEq T2]

/-- The loop over the dimensions, run for `n` dimensions: the sum of squares, and the flag
that is still set exactly when all entries seen are zero. -/
theorem row_scan_loop (toDouble : T2 → α) (offsets : RMatrix T2) (i n : Nat) :
    (forLoop n
        (fun j (st : α × Bool) =>
          (st.1 + toDouble (offsets.ptr (j * offsets.nrow + i))
              * toDouble (offsets.ptr (j * offsets.nrow + i)),
            if offsets.ptr (j * offsets.nrow + i) ≠ 0 then false else st.2))
        (0, true)).1
      = ∑ j ∈ Finset.range n, toDouble (offsets.ptr (j * offsets.nrow + i)) ^ 2 ∧
    ((forLoop n
        (fun j (st : α × Bool) =>
          (st.1 + toDouble (offsets.ptr (j * offsets.nrow + i))
              * toDouble (offsets.ptr (j * offsets.nrow + i)),
            if offsets.ptr (j * offsets.nrow + i) ≠ 0 then false else st.2))
        (0, true)).2 = true
      ↔ ∀ j, j < n → offsets.ptr (j * offsets.nrow + i) = 0) := by
  induction n with
  | zero => simp [forLoop_zero]
  | succ n ih =>
    rw [forLoop_succ]
    obtain ⟨ih1, ih2⟩ := ih
    refine ⟨?_, ?_⟩
    · simp only [ih1, Finset.sum_range_succ, sq]
    · by_cases hz : offsets.ptr (n * offsets.nrow + i) = 0
      · simp only [hz, ne_eq, not_true_eq_false, if_false, ih2]
        constructor
        · intro h j hj
          by_cases hjn : j = n
          · subst hjn; exact hz
          · exact h j (by omega)
        · intro h j hj
          exact h j (by omega)
      · simp only [ne_eq, hz, not_false_eq_true, if_true]
        constructor
        · intro h; exact absurd h (by simp)
        · intro h; exact absurd (h n (Nat.lt_succ_self n)) hz

theorem offset_row_scan_fst (toDouble : T2 → α) (offsets : RMatrix T2) (i : Nat) :
    (offset_row_scan toDouble offsets i).1 = spec_offset_norm2 toDouble offsets i :=
  (row_scan_loop toDouble offsets i offsets.ncol).1

theorem offset_row_scan_snd (toDouble : T2 → α) (offsets : RMatrix T2) (i : Nat) :
    (offset_row_scan toDouble offsets i).2 = true ↔ zero_row offsets i :=
  (row_scan_loop toDouble offsets i offsets.ncol).2

/-- The alpha vector after the first loop. -/
theorem alpha_loop_snd (m : CMath α) (toDouble : T2 → α) (offsets : RMatrix T2) (sigma : α)
    (p : Nat) :
    (alpha_loop m toDouble offsets sigma).2 p
      = if p < offsets.nrow then
          m.exp (-spec_offset_norm2 toDouble offsets p / (2 * (sigma * sigma)))
        else 0 := by
  unfold alpha_loop
  rw [forLoop_store _
    (fun i => m.exp (-spec_offset_norm2 toDouble offsets i / (2 * (sigma * sigma))))]
  intro i st
  simp only [offset_row_scan_fst]

/-- The center index after `n` iterations of the first loop: the last zero row among the
first `n` rows, or `0`. -/
theorem center_loop (m : CMath α) (toDouble : T2 → α) (offsets : RMatrix T2) (sigma : α)
    (n : Nat) :
    let k := (forLoop n
      (fun i (st : Nat × (Nat → α)) =>
        (if (offset_row_scan toDouble offsets i).2 then i else st.1,
          Function.update st.2 i
            (m.exp (-(offset_row_scan toDouble offsets i).1 / (2 * (sigma * sigma))))))
      (0, fun _ => 0)).1
    (k < n ∧ zero_row offsets k ∧ ∀ i, k < i → i < n → ¬ zero_row offsets i) ∨
    (k = 0 ∧ ∀ i, i < n → ¬ zero_row offsets i) := by
  induction n with
  | zero => right; simp [forLoop_zero]
  | succ n ih =>
    simp only [forLoop_succ]
    by_cases hz : (offset_row_scan toDouble offsets n).2 = true
    · left
      simp only [hz, if_true]
      exact ⟨Nat.lt_succ_self n, (offset_row_scan_snd toDouble offsets n).mp hz,
        fun i h1 h2 => by omega⟩
    · have hnz : ¬ zero_row offsets n := fun h =>
        hz ((offset_row_scan_snd toDouble offsets n).mpr h)
      simp only [hz, Bool.false_eq_true, if_false]
      rcases ih with ⟨h1, h2, h3⟩ | ⟨h1, h2⟩
      · left
        refine ⟨Nat.lt_succ_of_lt h1, h2, ?_⟩
        intro i hi1 hi2
        by_cases hin : i = n
        · subst hin; exact hnz
        · exact h3 i hi1 (by omega)
      · right
        refine ⟨h1, ?_⟩
        intro i hi
        by_cases hin : i = n
        · subst hin; exact hnz
        · exact h2 i (by omega)

theorem alpha_loop_fst (m : CMath α) (toDouble : T2 → α) (offsets : RMatrix T2) (sigma : α) :
    is_identified_center offsets (alpha_loop m toDouble offsets sigma).1 :=
  center_loop m toDouble offsets sigma offsets.nrow

theorem feature_d2_eq (toDouble : T1 → α) (x : RMatrix T1) (k i : Nat) :
    feature_d2 toDouble x k i = spec_feature_d2 toDouble x k i := by
  unfold feature_d2 spec_feature_d2
  have h := forLoop_add
    (fun j => toDouble (x.ptr (i * x.nrow + j) - x.ptr (k * x.nrow + j)) ^ 2) x.nrow 0
  rw [zero_add] at h
  rw [← h]
  congr 1
  funext j d2
  simp [sq]

/-- The extrema after `n` iterations of the second loop: still infinite for `n = 0`,
otherwise the greatest and the least of the first `n` squared distances. -/
theorem extrema_invariant (d2 : Nat → α) (n : Nat) (pBeta : Nat → α) :
    let st := forLoop n
      (fun i (st : (Option α × Option α) × (Nat → α)) =>
        ((if gt_max (d2 i) st.1.1 then some (d2 i) else st.1.1,
          if lt_min (d2 i) st.1.2 then some (d2 i) else st.1.2),
          Function.update st.2 i (d2 i)))
      ((none, none), pBeta)
    (n = 0 ∧ st.1 = (none, none)) ∨
    ∃ mx mn, st.1 = (some mx, some mn) ∧
      IsGreatest (d2 '' Set.Iio n) mx ∧ IsLeast (d2 '' Set.Iio n) mn := by
  induction n with
  | zero => left; simp [forLoop_zero]
  | succ n ih =>
    right
    simp only [forLoop_succ]
    have himg : d2 '' Set.Iio (n + 1) = insert (d2 n) (d2 '' Set.Iio n) := by
      ext y
      simp only [Set.mem_image, Set.mem_Iio, Set.mem_insert_iff]
      constructor
      · rintro ⟨i, hi, rfl⟩
        by_cases hin : i = n
        · left; rw [hin]
        · right; exact ⟨i, by omega, rfl⟩
      · rintro (h | ⟨i, hi, rfl⟩)
        · exact ⟨n, Nat.lt_succ_self n, h.symm⟩
        · exact ⟨i, Nat.lt_succ_of_lt hi, rfl⟩
    rcases ih with ⟨h0, hst⟩ | ⟨mx, mn, hst, hmx, hmn⟩
    · subst h0
      refine ⟨d2 0, d2 0, ?_, ?_, ?_⟩
      · simp [forLoop_zero, gt_max, lt_min]
      · rw [himg]; simp [IsGreatest, upperBounds]
      · rw [himg]; simp [IsLeast, lowerBounds]
    · rw [hst, himg]
      refine ⟨if d2 n > mx then d2 n else mx, if d2 n < mn then d2 n else mn, ?_, ?_, ?_⟩
      · simp only [gt_max, lt_min, decide_eq_true_eq]
        by_cases h1 : d2 n > mx <;> by_cases h2 : d2 n < mn <;> simp [h1, h2]
      · by_cases h1 : d2 n > mx
        · rw [if_pos h1]
          refine ⟨Set.mem_insert _ _, ?_⟩
          intro y hy
          rcases hy with rfl | hy
          · exact le_rfl
          · exact le_trans (hmx.2 hy) (le_of_lt h1)
        · rw [if_neg h1]
          refine ⟨Set.mem_insert_of_mem _ hmx.1, ?_⟩
          intro y hy
          rcases hy with rfl | hy
          · exact not_lt.mp h1
          · exact hmx.2 hy
      · by_cases h2 : d2 n < mn
        · rw [if_pos h2]
          refine ⟨Set.mem_insert _ _, ?_⟩
          intro y hy
          rcases hy with rfl | hy
          · exact le_rfl
          · exact le_trans (le_of_lt h2) (hmn.2 hy)
        · rw [if_neg h2]
          refine ⟨Set.mem_insert_of_mem _ hmn.1, ?_⟩
          intro y hy
          rcases hy with rfl | hy
          · exact not_lt.mp h2
          · exact hmn.2 hy

/-- The state after the second loop over a non-empty pixel set. -/
theorem extrema_loop_eq (toDouble : T1 → α) (x : RMatrix T1) (npixels k : Nat)
    (pBeta : Nat → α) (hn : 0 < npixels) :
    (∃ mx mn, (extrema_loop toDouble x npixels k pBeta).1 = (some mx, some mn) ∧
      IsGreatest (spec_feature_d2 toDouble x k '' Set.Iio npixels) mx ∧
      IsLeast (spec_feature_d2 toDouble x k '' Set.Iio npixels) mn) ∧
    ∀ p, (extrema_loop toDouble x npixels k pBeta).2 p
      = if p < npixels then spec_feature_d2 toDouble x k p else pBeta p := by
  have hbody : extrema_loop toDouble x npixels k pBeta
      = forLoop npixels
        (fun i (st : (Option α × Option α) × (Nat → α)) =>
          ((if gt_max (spec_feature_d2 toDouble x k i) st.1.1
              then some (spec_feature_d2 toDouble x k i) else st.1.1,
            if lt_min (spec_feature_d2 toDouble x k i) st.1.2
              then some (spec_feature_d2 toDouble x k i) else st.1.2),
            Function.update st.2 i (spec_feature_d2 toDouble x k i)))
        ((none, none), pBeta) := by
    unfold extrema_loop
    simp only [feature_d2_eq]
  rw [hbody]
  refine ⟨?_, ?_⟩
  · rcases extrema_invariant (spec_feature_d2 toDouble x k) npixels pBeta with
      ⟨h0, _⟩ | h
    · omega
    · exact h
  · intro p
    rw [forLoop_store _ (fun i => spec_feature_d2 toDouble x k i)]
    intro i st
    rfl

/-- The alpha vector returned by `get_spatial_weights`. -/
theorem get_spatial_weights_alpha (m : CMath α) (toDouble1 : T1 → α) (toDouble2 : T2 → α)
    (x : RMatrix T1) (offsets : RMatrix T2) (sigma : α) (bilateral : Bool) :
    (get_spatial_weights m toDouble1 toDouble2 x offsets sigma bilateral).1
      = (List.range offsets.nrow).map
          (fun i => m.exp (-spec_offset_norm2 toDouble2 offsets i / (2 * (sigma * sigma)))) := by
  simp only [get_spatial_weights, vecElems]
  apply List.map_congr_left
  intro i hi
  rw [alpha_loop_snd, if_pos (List.mem_range.mp hi)]

/-- The beta vector returned by `get_spatial_weights` without bilateral weighting. -/
theorem get_spatial_weights_beta_plain (m : CMath α) (toDouble1 : T1 → α)
    (toDouble2 : T2 → α) (x : RMatrix T1) (offsets : RMatrix T2) (sigma : α) :
    (get_spatial_weights m toDouble1 toDouble2 x offsets sigma false).2
      = List.replicate offsets.nrow 1 := by
  simp only [get_spatial_weights, vecElems, Bool.false_eq_true, if_false]
  rw [List.eq_replicate_iff]
  refine ⟨by simp, ?_⟩
  intro b hb
  obtain ⟨i, hi, rfl⟩ := List.mem_map.mp hb
  have h := forLoop_map_cells (fun _ : α => (1 : α)) offsets.nrow (fun _ => 0) i
  rw [if_pos (List.mem_range.mp hi)] at h
  exact h

/-- The beta vector returned by `get_spatial_weights` with bilateral weighting, for a
non-empty pixel set: `k` is the identified center, `mx` and `mn` the extrema. -/
theorem get_spatial_weights_beta_bilateral (m : CMath α) (toDouble1 : T1 → α)
    (toDouble2 : T2 → α) (x : RMatrix T1) (offsets : RMatrix T2) (sigma : α)
    (hn : 0 < offsets.nrow) (k : Nat) (hk : is_identified_center offsets k) (mx mn : α)
    (hmx : IsGreatest (spec_feature_d2 toDouble1 x k '' Set.Iio offsets.nrow) mx)
    (hmn : IsLeast (spec_feature_d2 toDouble1 x k '' Set.Iio offsets.nrow) mn) :
    (get_spatial_weights m toDouble1 toDouble2 x offsets sigma true).2
      = (List.range offsets.nrow).map
          (fun i => m.exp (-spec_feature_d2 toDouble1 x k i
            / (2 * ((m.sqrt mx - m.sqrt mn) / 2 * ((m.sqrt mx - m.sqrt mn) / 2))))) := by
  have hk2 : (alpha_loop m toDouble2 offsets sigma).1 = k :=
    is_identified_center_unique offsets _ _ (alpha_loop_fst m toDouble2 offsets sigma) hk
  simp only [get_spatial_weights, vecElems, if_true, hk2]
  obtain ⟨⟨mx2, mn2, hst, hmx2, hmn2⟩, hcells⟩ :=
    extrema_loop_eq toDouble1 x offsets.nrow k (fun _ => 0) hn
  have e1 : mx2 = mx := hmx2.unique hmx
  have e2 : mn2 = mn := hmn2.unique hmn
  subst e1 e2
  rw [hst]
  apply List.map_congr_left
  intro i hi
  have h := forLoop_map_cells
    (fun b : α => m.exp (-b / (2 * bandwidth m (some mx2, some mn2)))) offsets.nrow
    (extrema_loop toDouble1 x offsets.nrow k (fun _ => 0)).2 i
  rw [if_pos (List.mem_range.mp hi), hcells i, if_pos (List.mem_range.mp hi)] at h
  rw [h]
  rfl

end WeightsLemmas

theorem spec_offset_norm2_nonneg {T : Type} (toDouble : T → ℝ) (offsets : RMatrix T)
    (i : Nat) : 0 ≤ spec_offset_norm2 toDouble offsets i :=
  Finset.sum_nonneg (fun _ _ => sq_nonneg _)

/-! ## Claims on `get_spatial_weights` -/

section WeightsClaims

variable {T1 T2 : Type} [Sub T1] [Zero T2] [DecidableEq T2]

/-- Claim C6, as amended. For every offsets matrix and every bandwidth `sigma > 0` (with or
without bilateral weighting), every alpha value returned by `get_spatial_weights` lies in
the closed interval `[0, 1]` (the value 0 is returned when `exp` underflows), and every
neighbor whose offset is zero in every dimension receives `alpha = 1`.  It holds for every
`exp` that is never negative, at most 1 on non-positive arguments and 1 at 0. -/
theorem get_spatial_weights_alpha_range {α : Type} [LinearOrderedField α] (m : CMath α)
    (hm : m.IsRounded) (toDouble1 : T1 → α) (toDouble2 : T2 → α) (x : RMatrix T1)
    (offsets : RMatrix T2) (sigma : α) (hs : 0 < sigma) (bilateral : Bool) :
    (∀ a ∈ (get_spatial_weights m toDouble1 toDouble2 x offsets sigma bilateral).1,
      0 ≤ a ∧ a ≤ 1) ∧
    ∀ i, i < offsets.nrow → (∀ j, j < offsets.ncol → toDouble2 (offsets.entry i j) = 0) →
      (get_spatial_weights m toDouble1 toDouble2 x offsets sigma bilateral).1.getD i 0
        = 1 := by
  rw [get_spatial_weights_alpha]
  refine ⟨?_, ?_⟩
  · intro a ha
    obtain ⟨i, _, rfl⟩ := List.mem_map.mp ha
    refine ⟨hm.exp_nonneg _, hm.exp_le_one _ ?_⟩
    apply div_nonpos_of_nonpos_of_nonneg
    · exact neg_nonpos.mpr (Finset.sum_nonneg (fun _ _ => sq_nonneg _))
    · positivity
  · intro i hi hz
    rw [List.getD_eq_getElem _ _ (by simpa using hi)]
    simp only [List.getElem_map, List.getElem_range]
    have h0 : spec_offset_norm2 toDouble2 offsets i = 0 := by
      unfold spec_offset_norm2
      apply Finset.sum_eq_zero
      intro j hj
      have := hz j (Finset.mem_range.mp hj)
      simp only [RMatrix.entry] at this
      rw [this]; simp
    rw [h0, neg_zero, zero_div, hm.exp_zero]

/-- Claim C7. For every offsets matrix and every `sigma` other than 0 (so that the
denominator `2 sigma^2` is not zero), `get_spatial_weights` with `bilateral = false`
returns a beta vector whose entries are all 1 and an alpha vector with
`alpha[i] = exp(-||offset_i||^2 / (2 sigma^2))`, both of length the row count of the
offsets; at `sigma = 1`, `alpha[i] = exp(-||offset_i||^2 / 2)`. -/
theorem get_spatial_weights_plain (m : CMath ℝ) (hm : m.IsIdeal) (toDouble1 : T1 → ℝ)
    (toDouble2 : T2 → ℝ) (x : RMatrix T1) (offsets : RMatrix T2) (sigma : ℝ)
    (hs : sigma ≠ 0) :
    2 * sigma ^ 2 ≠ 0 ∧
    (get_spatial_weights m toDouble1 toDouble2 x offsets sigma false).1
      = (List.range offsets.nrow).map
          (fun i => Real.exp (-(spec_offset_norm2 toDouble2 offsets i / (2 * sigma ^ 2)))) ∧
    (get_spatial_weights m toDouble1 toDouble2 x offsets sigma false).2
      = List.replicate offsets.nrow 1 ∧
    (get_spatial_weights m toDouble1 toDouble2 x offsets sigma false).1.length
      = offsets.nrow ∧
    (get_spatial_weights m toDouble1 toDouble2 x offsets sigma false).2.length
      = offsets.nrow ∧
    (get_spatial_weights m toDouble1 toDouble2 x offsets 1 false).1
      = (List.range offsets.nrow).map
          (fun i => Real.exp (-(spec_offset_norm2 toDouble2 offsets i / 2))) := by
  rw [get_spatial_weights_beta_plain, get_spatial_weights_alpha, get_spatial_weights_alpha]
  refine ⟨mul_ne_zero two_ne_zero (pow_ne_zero 2 hs), ?_, rfl, by simp, by simp, ?_⟩
  · apply List.map_congr_left
    intro i _
    rw [hm.exp_eq, neg_div, sq]
  · apply List.map_congr_left
    intro i _
    rw [hm.exp_eq, neg_div]
    norm_num

/-- The real `sqrt` and `exp`, with the underflow of the double `exp`, have the properties
of `CMath.IsRounded`. -/
theorem with_underflow_isRounded :
    (with_underflow (⟨Real.sqrt, Real.exp, fun x y => x ^ y, fun _ => 0⟩ : CMath ℝ)).IsRounded := by
  refine ⟨?_, ?_, ?_, ?_, ?_⟩
  · intro x
    show 0 ≤ (if x ≤ -746 then (0 : ℝ) else Real.exp x)
    split_ifs
    · exact le_rfl
    · exact (Real.exp_pos x).le
  · intro x hx
    show (if x ≤ -746 then (0 : ℝ) else Real.exp x) ≤ 1
    split_ifs
    · exact zero_le_one
    · exact Real.exp_le_one_iff.mpr hx
  · show (if (0 : ℝ) ≤ -746 then (0 : ℝ) else Real.exp 0) = 1
    rw [if_neg (by norm_num), Real.exp_zero]
  · exact Real.sqrt_zero
  · intro x hx
    exact Real.sqrt_pos.mpr hx

/-- The alpha vector for the offsets 0 and 40 at `sigma = 1`, for an `exp` with the
underflow of IEEE doubles: the second entry is `exp(-1600 / 2) = exp(-800) = 0`. -/
theorem far_offsets_alpha :
    (get_spatial_weights
      (with_underflow (⟨Real.sqrt, Real.exp, fun x y => x ^ y, fun _ => 0⟩ : CMath ℝ))
      id id (two_features ℝ) (far_offsets ℝ) 1 false).1 = [1, 0] := by
  rw [get_spatial_weights_alpha]
  simp [far_offsets, spec_offset_norm2, with_underflow, ptrOfList, List.range_succ]
  norm_num

/-- Witness of C6, as amended: offsets 0 and 40 in one dimension, `sigma = 1`, an `exp`
that underflows: the alpha values are 1 and 0. -/
theorem get_spatial_weights_alpha_range_witness :
    (with_underflow (⟨Real.sqrt, Real.exp, fun x y => x ^ y, fun _ => 0⟩ : CMath ℝ)).IsRounded ∧
    (0 : ℝ) < 1 ∧
    ((∀ a ∈ (get_spatial_weights
        (with_underflow (⟨Real.sqrt, Real.exp, fun x y => x ^ y, fun _ => 0⟩ : CMath ℝ))
        id id (two_features ℝ) (far_offsets ℝ) 1 false).1, 0 ≤ a ∧ a ≤ 1) ∧
      ∀ i, i < (far_offsets ℝ).nrow →
        (∀ j, j < (far_offsets ℝ).ncol → id ((far_offsets ℝ).entry i j) = 0) →
        (get_spatial_weights
          (with_underflow (⟨Real.sqrt, Real.exp, fun x y => x ^ y, fun _ => 0⟩ : CMath ℝ))
          id id (two_features ℝ) (far_offsets ℝ) 1 false).1.getD i 0 = 1) :=
  ⟨with_underflow_isRounded, one_pos,
    get_spatial_weights_alpha_range _ with_underflow_isRounded id id (two_features ℝ)
      (far_offsets ℝ) 1 one_pos false⟩

/-- Claim C6 as stated fails. For the offsets 0 and 40 in one dimension and `sigma = 1`
the second alpha value is `exp(-40 * 40 / (2 * 1 * 1)) = exp(-800)`, which is `0` for the
`exp` of IEEE doubles (underflow): the alpha vector is `[1, 0]`, and `0` is not in the
interval `(0, 1]`. -/
theorem get_spatial_weights_alpha_underflow_counterexample :
    (0 : ℝ) < 1 ∧
    (get_spatial_weights
      (with_underflow (⟨Real.sqrt, Real.exp, fun x y => x ^ y, fun _ => 0⟩ : CMath ℝ))
      id id (two_features ℝ) (far_offsets ℝ) 1 false).1 = [1, 0] ∧
    ¬ ((0 : ℝ) < (get_spatial_weights
      (with_underflow (⟨Real.sqrt, Real.exp, fun x y => x ^ y, fun _ => 0⟩ : CMath ℝ))
      id id (two_features ℝ) (far_offsets ℝ) 1 false).1.getD 1 0) := by
  refine ⟨one_pos, far_offsets_alpha, ?_⟩
  rw [far_offsets_alpha]
  simp

/-- Witness of C7: offsets 0 and 3 in one dimension, `sigma = 1`. -/
theorem get_spatial_weights_plain_witness :
    ∃ m : CMath ℝ, m.IsIdeal ∧ (1 : ℝ) ≠ 0 ∧
      (2 * (1 : ℝ) ^ 2 ≠ 0 ∧
        (get_spatial_weights m id id (two_features ℝ) (two_offsets ℝ) 1 false).1
          = (List.range (two_offsets ℝ).nrow).map
              (fun i => Real.exp (-(spec_offset_norm2 id (two_offsets ℝ) i / (2 * 1 ^ 2)))) ∧
        (get_spatial_weights m id id (two_features ℝ) (two_offsets ℝ) 1 false).2
          = List.replicate (two_offsets ℝ).nrow 1 ∧
        (get_spatial_weights m id id (two_features ℝ) (two_offsets ℝ) 1 false).1.length
          = (two_offsets ℝ).nrow ∧
        (get_spatial_weights m id id (two_features ℝ) (two_offsets ℝ) 1 false).2.length
          = (two_offsets ℝ).nrow ∧
        (get_spatial_weights m id id (two_features ℝ) (two_offsets ℝ) 1 false).1
          = (List.range (two_offsets ℝ).nrow).map
              (fun i => Real.exp (-(spec_offset_norm2 id (two_offsets ℝ) i / 2)))) := by
  have hm : (⟨Real.sqrt, Real.exp, fun x y => x ^ y, fun _ => 0⟩ : CMath ℝ).IsIdeal :=
    ⟨fun _ _ => rfl, fun _ => rfl, fun _ _ _ _ => rfl, fun _ _ => rfl⟩
  exact ⟨_, hm, one_ne_zero,
    get_spatial_weights_plain _ hm id id (two_features ℝ) (two_offsets ℝ) 1 one_ne_zero⟩

theorem spec_feature_d2_nonneg (toDouble : T1 → ℝ) (x : RMatrix T1) (k i : Nat) :
    0 ≤ spec_feature_d2 toDouble x k i :=
  Finset.sum_nonneg (fun _ _ => sq_nonneg _)

/-- The squared feature distance of the center to itself is zero. -/
theorem spec_feature_d2_self (toDouble : T1 → ℝ) (hself : ∀ a : T1, toDouble (a - a) = 0)
    (x : RMatrix T1) (k : Nat) : spec_feature_d2 toDouble x k k = 0 := by
  unfold spec_feature_d2
  apply Finset.sum_eq_zero
  intro j _
  rw [hself]; norm_num

/-- With a center in the pixel set the least squared feature distance is zero. -/
theorem min_d2_eq_zero (toDouble : T1 → ℝ) (hself : ∀ a : T1, toDouble (a - a) = 0)
    (x : RMatrix T1) (n k : Nat) (hk : k < n) (mn : ℝ)
    (hmn : IsLeast (spec_feature_d2 toDouble x k '' Set.Iio n) mn) : mn = 0 := by
  apply le_antisymm
  · have := hmn.2 (Set.mem_image_of_mem (spec_feature_d2 toDouble x k) (Set.mem_Iio.mpr hk))
    rwa [spec_feature_d2_self toDouble hself] at this
  · obtain ⟨i, _, rfl⟩ := hmn.1
    exact spec_feature_d2_nonneg toDouble x k i

/-- A pixel that differs from the center in some feature has a positive squared feature
distance, and so has the greatest one. -/
theorem max_d2_pos (toDouble : T1 → ℝ) (x : RMatrix T1) (n k : Nat) (mx : ℝ)
    (hmx : IsGreatest (spec_feature_d2 toDouble x k '' Set.Iio n) mx)
    (hne : ∃ i, i < n ∧ ∃ j, j < x.nrow ∧
      toDouble (x.ptr (i * x.nrow + j) - x.ptr (k * x.nrow + j)) ≠ 0) : 0 < mx := by
  obtain ⟨i, hi, j, hj, hd⟩ := hne
  have h1 : 0 < toDouble (x.ptr (i * x.nrow + j) - x.ptr (k * x.nrow + j)) ^ 2 := by
    positivity
  have h2 : toDouble (x.ptr (i * x.nrow + j) - x.ptr (k * x.nrow + j)) ^ 2
      ≤ spec_feature_d2 toDouble x k i := by
    unfold spec_feature_d2
    exact Finset.single_le_sum
      (f := fun j => toDouble (x.ptr (i * x.nrow + j) - x.ptr (k * x.nrow + j)) ^ 2)
      (fun _ _ => sq_nonneg _) (Finset.mem_range.mpr hj)
  have h3 := hmx.2 (Set.mem_image_of_mem (spec_feature_d2 toDouble x k) (Set.mem_Iio.mpr hi))
  linarith

/-- Claim C8. For `get_spatial_weights` with `bilateral = true` and a neighbor set in which
some neighbor differs in some feature from the center `k` that the first loop identifies
(the last zero row of the offsets, or the row 0): with `d2[i]` the
squared feature-space distance of the neighbor `i` to the center, `mx` and `mn` the
greatest and the least of the `d2[i]`, and `lambda = ((sqrt mx - sqrt mn) / 2)^2`, the
bandwidth `lambda` is not zero and the returned beta is
`beta[i] = exp(-d2[i] / (2 lambda))` for every neighbor `i`. -/
theorem get_spatial_weights_bilateral (m : CMath ℝ) (hm : m.IsIdeal) (toDouble1 : T1 → ℝ)
    (hself : ∀ a : T1, toDouble1 (a - a) = 0) (toDouble2 : T2 → ℝ) (x : RMatrix T1)
    (offsets : RMatrix T2) (sigma : ℝ) (k : Nat) (hk : is_identified_center offsets k)
    (mx mn : ℝ)
    (hmx : IsGreatest (spec_feature_d2 toDouble1 x k '' Set.Iio offsets.nrow) mx)
    (hmn : IsLeast (spec_feature_d2 toDouble1 x k '' Set.Iio offsets.nrow) mn)
    (hne : ∃ i, i < offsets.nrow ∧ ∃ j, j < x.nrow ∧
      toDouble1 (x.ptr (i * x.nrow + j) - x.ptr (k * x.nrow + j)) ≠ 0) :
    ((Real.sqrt mx - Real.sqrt mn) / 2) ^ 2 ≠ 0 ∧
    (get_spatial_weights m toDouble1 toDouble2 x offsets sigma true).2
      = (List.range offsets.nrow).map
          (fun i => Real.exp (-(spec_feature_d2 toDouble1 x k i
            / (2 * ((Real.sqrt mx - Real.sqrt mn) / 2) ^ 2)))) := by
  have hn : 0 < offsets.nrow := by
    obtain ⟨i, hi, _⟩ := hne
    omega
  have hkl : k < offsets.nrow := is_identified_center_lt offsets k hk hn
  have hmn0 : mn = 0 := min_d2_eq_zero toDouble1 hself x offsets.nrow k hkl mn hmn
  have hmxpos : 0 < mx := max_d2_pos toDouble1 x offsets.nrow k mx hmx hne
  refine ⟨?_, ?_⟩
  · rw [hmn0, Real.sqrt_zero, sub_zero]
    have : 0 < Real.sqrt mx := Real.sqrt_pos.mpr hmxpos
    positivity
  · rw [get_spatial_weights_beta_bilateral m toDouble1 toDouble2 x offsets sigma hn k hk
      mx mn hmx hmn]
    apply List.map_congr_left
    intro i _
    rw [hm.exp_eq, hm.sqrt_eq mx (le_of_lt hmxpos), hm.sqrt_eq mn (by rw [hmn0]), neg_div, sq]

theorem two_features_d2_zero : spec_feature_d2 id (two_features ℝ) 0 0 = 0 := by
  simp [spec_feature_d2, two_features]

theorem two_features_d2_one : spec_feature_d2 id (two_features ℝ) 0 1 = 4 := by
  simp [spec_feature_d2, two_features, ptrOfList]
  norm_num

theorem two_offsets_center : is_identified_center (two_offsets ℝ) 0 := by
  left
  refine ⟨by simp [two_offsets], ?_, ?_⟩
  · intro j hj
    have hj0 : j = 0 := by simp [two_offsets] at hj; omega
    subst hj0
    simp [two_offsets, ptrOfList]
  · intro i h1 h2 hz
    have hi1 : i = 1 := by simp [two_offsets] at h2; omega
    subst hi1
    have := hz 0 (by simp [two_offsets])
    simp [two_offsets, ptrOfList] at this

theorem two_features_greatest :
    IsGreatest (spec_feature_d2 id (two_features ℝ) 0 '' Set.Iio (two_offsets ℝ).nrow) 4 := by
  refine ⟨⟨1, by simp [two_offsets], two_features_d2_one⟩, ?_⟩
  rintro y ⟨i, hi, rfl⟩
  have hi2 : i < 2 := by simpa [two_offsets] using hi
  interval_cases i
  · rw [two_features_d2_zero]; norm_num
  · rw [two_features_d2_one]

theorem two_features_least :
    IsLeast (spec_feature_d2 id (two_features ℝ) 0 '' Set.Iio (two_offsets ℝ).nrow) 0 := by
  refine ⟨⟨0, by simp [two_offsets], two_features_d2_zero⟩, ?_⟩
  rintro y ⟨i, hi, rfl⟩
  exact spec_feature_d2_nonneg id (two_features ℝ) 0 i

/-- Witness of C8: offsets 0 and 3, feature values 0 and 2: the center is the row 0, the
squared feature distances are 0 and 4. -/
theorem get_spatial_weights_bilateral_witness :
    ∃ m : CMath ℝ, m.IsIdeal ∧ (∀ a : ℝ, id (a - a) = 0) ∧
      is_identified_center (two_offsets ℝ) 0 ∧
      IsGreatest (spec_feature_d2 id (two_features ℝ) 0 '' Set.Iio (two_offsets ℝ).nrow) 4 ∧
      IsLeast (spec_feature_d2 id (two_features ℝ) 0 '' Set.Iio (two_offsets ℝ).nrow) 0 ∧
      (∃ i, i < (two_offsets ℝ).nrow ∧ ∃ j, j < (two_features ℝ).nrow ∧
        id ((two_features ℝ).ptr (i * (two_features ℝ).nrow + j)
          - (two_features ℝ).ptr (0 * (two_features ℝ).nrow + j)) ≠ 0) ∧
      (((Real.sqrt 4 - Real.sqrt 0) / 2) ^ 2 ≠ 0 ∧
        (get_spatial_weights m id id (two_features ℝ) (two_offsets ℝ) 1 true).2
          = (List.range (two_offsets ℝ).nrow).map
              (fun i => Real.exp (-(spec_feature_d2 id (two_features ℝ) 0 i
                / (2 * ((Real.sqrt 4 - Real.sqrt 0) / 2) ^ 2))))) := by
  have hm : (⟨Real.sqrt, Real.exp, fun x y => x ^ y, fun _ => 0⟩ : CMath ℝ).IsIdeal :=
    ⟨fun _ _ => rfl, fun _ => rfl, fun _ _ _ _ => rfl, fun _ _ => rfl⟩
  have hne : ∃ i, i < (two_offsets ℝ).nrow ∧ ∃ j, j < (two_features ℝ).nrow ∧
      id ((two_features ℝ).ptr (i * (two_features ℝ).nrow + j)
        - (two_features ℝ).ptr (0 * (two_features ℝ).nrow + j)) ≠ 0 :=
    ⟨1, by simp [two_offsets], 0, by simp [two_features],
      by simp [two_features, ptrOfList]⟩
  exact ⟨_, hm, fun a => sub_self a, two_offsets_center, two_features_greatest,
    two_features_least, hne,
    get_spatial_weights_bilateral _ hm id (fun a => sub_self a) id (two_features ℝ)
      (two_offsets ℝ) 1 0 two_offsets_center 4 0 two_features_greatest two_features_least
      hne⟩

end WeightsClaims

/-! ## Claims on `get_spatial_distance` -/

section DistanceClaims

variable {α : Type} [LinearOrderedField α] {T1 T2 : Type} [Sub T1] [Sub T2]

theorem offset_pair_d2_eq (toDouble : T2 → α) (offsets ref_offsets : RMatrix T2)
    (ix iy : Nat) :
    offset_pair_d2 toDouble offsets ref_offsets ref_offsets.ncol ix iy
      = spec_offset_pair_d2 toDouble offsets ref_offsets ix iy := by
  unfold offset_pair_d2 spec_offset_pair_d2
  rw [forLoop_add_of _
    (fun k => toDouble (offsets.ptr (k * offsets.nrow + ix)
      - ref_offsets.ptr (k * ref_offsets.nrow + iy)) ^ 2)]
  · rw [zero_add]
  · intro k acc
    simp only [sq]

/-- Claim C9. For every query point `i`, `get_spatial_distance` returns
`dist[i] = sqrt(S_i)`, where `S_i` is the sum, over all pairs `(ix, iy)` of a neighbor
position `ix` of `i` and a row `iy` of the reference set whose squared offset-to-offset
distance is strictly below `tol_dist`, of
`sqrt(alpha_i[ix] * ref_alpha[iy] * beta_i[ix] * ref_beta[iy])` times the sum over the
features `j` of `(x[j, neighbors_i[ix]] - ref[j, iy])^2`; the other pairs contribute `0`,
and `S_i` depends on the point `i` only (nothing is carried over from one point to the
next).  It holds for every interpretation `m.sqrt` of `sqrt`, hence for the real one. -/
theorem get_spatial_distance_eq (m : CMath α) (toDouble1 : T1 → α) (toDouble2 : T2 → α)
    (x ref : RMatrix T1) (offsets : Nat → RMatrix T2) (ref_offsets : RMatrix T2)
    (weights : Nat → (Nat → α) × (Nat → α)) (ref_weights : (Nat → α) × (Nat → α))
    (neighbors : List (List Nat)) (tol_dist : α) :
    get_spatial_distance m toDouble1 toDouble2 x ref offsets ref_offsets weights
        ref_weights neighbors tol_dist
      = (List.range neighbors.length).map (fun i =>
          m.sqrt (∑ ix ∈ Finset.range (offsets i).nrow,
            ∑ iy ∈ Finset.range ref_offsets.nrow,
              if spec_offset_pair_d2 toDouble2 (offsets i) ref_offsets ix iy < tol_dist then
                m.sqrt ((weights i).1 ix * ref_weights.1 iy * (weights i).2 ix
                    * ref_weights.2 iy)
                  * ∑ j ∈ Finset.range x.nrow,
                      toDouble1 (x.ptr (((neighbors.getD i []).getD ix 0 - 1) * x.nrow + j)
                        - ref.ptr (iy * x.nrow + j)) ^ 2
              else 0)) := by
  unfold get_spatial_distance vecElems
  apply List.map_congr_left
  intro i hi
  rw [forLoop_write _ (fun i =>
    m.sqrt (∑ ix ∈ Finset.range (offsets i).nrow,
      ∑ iy ∈ Finset.range ref_offsets.nrow,
        if spec_offset_pair_d2 toDouble2 (offsets i) ref_offsets ix iy < tol_dist then
          m.sqrt ((weights i).1 ix * ref_weights.1 iy * (weights i).2 ix
              * ref_weights.2 iy)
            * ∑ j ∈ Finset.range x.nrow,
                toDouble1 (x.ptr (((neighbors.getD i []).getD ix 0 - 1) * x.nrow + j)
                  - ref.ptr (iy * x.nrow + j)) ^ 2
        else 0))]
  · rw [if_pos (List.mem_range.mp hi)]
  · intro i2 q
    simp only
    rw [forLoop_add_of _ (fun ix =>
      ∑ iy ∈ Finset.range ref_offsets.nrow,
        if spec_offset_pair_d2 toDouble2 (offsets i2) ref_offsets ix iy < tol_dist then
          m.sqrt ((weights i2).1 ix * ref_weights.1 iy * (weights i2).2 ix
              * ref_weights.2 iy)
            * ∑ j ∈ Finset.range x.nrow,
                toDouble1 (x.ptr (((neighbors.getD i2 []).getD ix 0 - 1) * x.nrow + j)
                  - ref.ptr (iy * x.nrow + j)) ^ 2
        else 0)]
    · rw [zero_add]
    · intro ix acc
      apply forLoop_add_of
      intro iy acc2
      rw [offset_pair_d2_eq]
      by_cases hc : spec_offset_pair_d2 toDouble2 (offsets i2) ref_offsets ix iy < tol_dist
      · rw [if_pos hc, if_pos hc]
        rw [forLoop_add_of _ (fun j =>
          m.sqrt ((weights i2).1 ix * ref_weights.1 iy * ((weights i2).2 ix
              * ref_weights.2 iy))
            * toDouble1 (x.ptr (((neighbors.getD i2 []).getD ix 0 - 1) * x.nrow + j)
                - ref.ptr (iy * x.nrow + j)) ^ 2)]
        · rw [← Finset.mul_sum]
          congr 3
          ring
        · intro j acc3
          ring
      · rw [if_neg hc, if_neg hc, add_zero]

end DistanceClaims

/-! ## Claims on `get_spatial_scores` -/

section ScoresClaims

variable {T1 T2 : Type}

theorem weight_sum_eq {α : Type} [LinearOrderedField α] (alpha beta : Nat → α) (n : Nat) :
    weight_sum alpha beta n = ∑ l ∈ Finset.range n, alpha l * beta l := by
  unfold weight_sum
  rw [forLoop_add, zero_add]

/-- Claim C10. For every point `i` with a non-zero weight sum and every center `k`, with all
`sd[j]` strictly positive, `get_spatial_scores` returns the `npixels x ncenters` matrix
with `score[i, k]` the sum over the neighbors `l` of `i` of the normalized weight
`alpha_i[l] * beta_i[l] / sum_m alpha_i[m] * beta_i[m]` times the sum over the features
`j` of `((x[j, neighbors_i[l]] - centers[j, k]) / sd[j])^2`, and the normalized weights of
the point sum to 1. -/
theorem get_spatial_scores_entry (toDouble1 : T1 → ℝ) (toDouble2 : T2 → ℝ)
    (x : RMatrix T1) (centers : RMatrix T2) (weights : Nat → (Nat → ℝ) × (Nat → ℝ))
    (neighbors : List (List Nat)) (sd : Nat → ℝ) (i k : Nat)
    (hi : i < neighbors.length) (hk : k < centers.ncol)
    (hauc : ∑ l ∈ Finset.range (neighbors.getD i []).length,
      (weights i).1 l * (weights i).2 l ≠ 0)
    (hsd : ∀ j, j < x.nrow → 0 < sd j) :
    (get_spatial_scores toDouble1 toDouble2 x centers weights neighbors sd).nrow
      = neighbors.length ∧
    (get_spatial_scores toDouble1 toDouble2 x centers weights neighbors sd).ncol
      = centers.ncol ∧
    (get_spatial_scores toDouble1 toDouble2 x centers weights neighbors sd).entry i k
      = ∑ l ∈ Finset.range (neighbors.getD i []).length,
          ((weights i).1 l * (weights i).2 l
              / ∑ l2 ∈ Finset.range (neighbors.getD i []).length,
                  (weights i).1 l2 * (weights i).2 l2)
            * ∑ j ∈ Finset.range x.nrow,
                ((toDouble1 (x.ptr (((neighbors.getD i []).getD l 0 - 1) * x.nrow + j))
                  - toDouble2 (centers.ptr (k * x.nrow + j))) / sd j) ^ 2 ∧
    ∑ l ∈ Finset.range (neighbors.getD i []).length,
        ((weights i).1 l * (weights i).2 l
          / ∑ l2 ∈ Finset.range (neighbors.getD i []).length,
              (weights i).1 l2 * (weights i).2 l2) = 1 := by
  refine ⟨rfl, rfl, ?_, ?_⟩
  · simp only [get_spatial_scores, RMatrix.entry]
    apply forLoop_cell _ _ _ _ i _ hi
    · intro q
      apply forLoop_cell _ _ _ _ k _ hk
      · intro q2
        rw [forLoop_accum_cell, weight_sum_eq]
        simp only [Function.update_same, zero_add]
        apply Finset.sum_congr rfl
        intro l _
        congr 1
        rw [forLoop_add_of_lt _ (fun j =>
          ((toDouble1 (x.ptr (((neighbors.getD i []).getD l 0 - 1) * x.nrow + j))
            - toDouble2 (centers.ptr (k * x.nrow + j))) / sd j) ^ 2)]
        · rw [zero_add]
        · intro j hj acc
          have hs : sd j ≠ 0 := (hsd j hj).ne.symm
          field_simp
          ring
      · intro k2 h1 _ q2
        rw [forLoop_accum_cell]
        have hne : k * neighbors.length + i ≠ k2 * neighbors.length + i := by
          intro h
          have := (cell_inj neighbors.length i i k2 k hi hi h).2
          omega
        rw [Function.update_noteq hne, Function.update_noteq hne]
    · intro i2 h1 h2 q
      apply forLoop_keep
      intro k2 _ q2
      rw [forLoop_accum_cell]
      have hne : k * neighbors.length + i ≠ k2 * neighbors.length + i2 := by
        intro h
        have := (cell_inj neighbors.length i2 i k2 k h2 hi h).1
        omega
      rw [Function.update_noteq hne, Function.update_noteq hne]
  · rw [← Finset.sum_div]
    exact div_self hauc

/-- Witness of C10: feature values 0 and 2, unit weights, the first point with the
neighbors 1 and 2 against the center with value 2: the score is `(4 + 0) / 2 = 2`. -/
theorem get_spatial_scores_entry_witness :
    0 < two_neighbors.length ∧ 1 < (two_features ℝ).ncol ∧
    (∑ l ∈ Finset.range (two_neighbors.getD 0 []).length,
      (unit_weights ℝ 0).1 l * (unit_weights ℝ 0).2 l ≠ 0) ∧
    (∀ j, j < (two_features ℝ).nrow → (0 : ℝ) < (fun _ => 1) j) ∧
    (get_spatial_scores id id (two_features ℝ) (two_features ℝ) (unit_weights ℝ)
        two_neighbors (fun _ => 1)).entry 0 1 = 2 ∧
    ((get_spatial_scores id id (two_features ℝ) (two_features ℝ) (unit_weights ℝ)
        two_neighbors (fun _ => 1)).nrow = two_neighbors.length ∧
    (get_spatial_scores id id (two_features ℝ) (two_features ℝ) (unit_weights ℝ)
        two_neighbors (fun _ => 1)).ncol = (two_features ℝ).ncol ∧
    (get_spatial_scores id id (two_features ℝ) (two_features ℝ) (unit_weights ℝ)
        two_neighbors (fun _ => 1)).entry 0 1
      = ∑ l ∈ Finset.range (two_neighbors.getD 0 []).length,
          ((unit_weights ℝ 0).1 l * (unit_weights ℝ 0).2 l
              / ∑ l2 ∈ Finset.range (two_neighbors.getD 0 []).length,
                  (unit_weights ℝ 0).1 l2 * (unit_weights ℝ 0).2 l2)
            * ∑ j ∈ Finset.range (two_features ℝ).nrow,
                ((id ((two_features ℝ).ptr
                      (((two_neighbors.getD 0 []).getD l 0 - 1) * (two_features ℝ).nrow + j))
                  - id ((two_features ℝ).ptr (1 * (two_features ℝ).nrow + j)))
                  / (fun _ => (1 : ℝ)) j) ^ 2 ∧
    ∑ l ∈ Finset.range (two_neighbors.getD 0 []).length,
        ((unit_weights ℝ 0).1 l * (unit_weights ℝ 0).2 l
          / ∑ l2 ∈ Finset.range (two_neighbors.getD 0 []).length,
              (unit_weights ℝ 0).1 l2 * (unit_weights ℝ 0).2 l2)
      = 1) := by
  have h1 : 0 < two_neighbors.length := by simp [two_neighbors]
  have h2 : 1 < (two_features ℝ).ncol := by simp [two_features]
  have h3 : ∑ l ∈ Finset.range (two_neighbors.getD 0 []).length,
      (unit_weights ℝ 0).1 l * (unit_weights ℝ 0).2 l ≠ 0 := by
    simp [two_neighbors, unit_weights]
  have h4 : ∀ j, j < (two_features ℝ).nrow → (0 : ℝ) < (fun _ => 1) j :=
    fun _ _ => one_pos
  have h := get_spatial_scores_entry id id (two_features ℝ) (two_features ℝ)
    (unit_weights ℝ) two_neighbors (fun _ => 1) 0 1 h1 h2 h3 h4
  refine ⟨h1, h2, h3, h4, ?_, h⟩
  rw [h.2.2.1]
  simp [two_neighbors, unit_weights, two_features, ptrOfList, Finset.sum_range_succ]
  norm_num

end ScoresClaims

/-! ## Further claims on `get_spatial_offsets` -/

section OffsetsAntisymmetry

/-- The cell `(i, j)` of the matrix returned by `get_spatial_offsets`. -/
theorem get_spatial_offsets_cell {T : Type} [Sub T] [Zero T] (coord : RMatrix T)
    (neighbors : List Nat) (k i j : Nat) (hi : i < neighbors.length) (hj : j < coord.ncol) :
    (get_spatial_offsets coord neighbors k).ptr (j * neighbors.length + i)
      = coord.ptr (j * coord.nrow + neighbors.getD i 0) - coord.ptr (j * coord.nrow + k) := by
  simp only [get_spatial_offsets]
  apply forLoop_cell _ _ _ _ i _ hi
  · intro q
    apply forLoop_cell _ _ _ _ j _ hj
    · intro q2; simp
    · intro j2 h1 _ q2
      apply Function.update_noteq
      intro h
      have := (cell_inj neighbors.length i i j2 j hi hi h).2
      omega
  · intro i2 h1 h2 q
    apply forLoop_keep
    intro j2 _ q2
    apply Function.update_noteq
    intro h
    have := (cell_inj neighbors.length i2 i j2 j h2 hi h).1
    omega

variable {T : Type} [AddGroup T]

/-- Claim C14. For every coordinate matrix and all point indices `i` and `k`: when `i` is
at the position `p` of a neighbor vector and `k` at the position `q` of another one, the
offset row that `get_spatial_offsets` computes for the neighbor `i` with center `k` is,
in every dimension `j`, the negation of the offset row it computes for the neighbor `k`
with center `i`. -/
theorem get_spatial_offsets_antisymm (coord : RMatrix T) (l1 l2 : List Nat) (i k p q j : Nat)
    (hp : p < l1.length) (hq : q < l2.length) (hi : l1.getD p 0 = i) (hk : l2.getD q 0 = k)
    (hj : j < coord.ncol) :
    (get_spatial_offsets coord l1 k).entry p j
      = -(get_spatial_offsets coord l2 i).entry q j := by
  have h1 := get_spatial_offsets_cell coord l1 k p j hp hj
  have h2 := get_spatial_offsets_cell coord l2 i q j hq hj
  simp only [RMatrix.entry]
  have e1 : (get_spatial_offsets coord l1 k).nrow = l1.length := rfl
  have e2 : (get_spatial_offsets coord l2 i).nrow = l2.length := rfl
  rw [e1, e2, h1, h2, hi, hk, neg_sub]

/-- Witness of C14: coordinates 0, 1, 5; the neighbor 2 with center 1 has the offset 4,
the neighbor 1 with center 2 the offset -4. -/
theorem get_spatial_offsets_antisymm_witness :
    0 < [2].length ∧ 0 < [1].length ∧ [2].getD 0 0 = 2 ∧ [1].getD 0 0 = 1 ∧
    0 < (⟨3, 1, ptrOfList 0 [0, 1, 5]⟩ : RMatrix Int).ncol ∧
    (get_spatial_offsets (⟨3, 1, ptrOfList 0 [0, 1, 5]⟩ : RMatrix Int) [2] 1).entry 0 0 = 4 ∧
    (get_spatial_offsets (⟨3, 1, ptrOfList 0 [0, 1, 5]⟩ : RMatrix Int) [2] 1).entry 0 0
      = -(get_spatial_offsets (⟨3, 1, ptrOfList 0 [0, 1, 5]⟩ : RMatrix Int) [1] 2).entry 0 0 :=
  ⟨by decide, by decide, by decide, by decide, by decide, by decide,
    get_spatial_offsets_antisymm (⟨3, 1, ptrOfList 0 [0, 1, 5]⟩ : RMatrix Int) [2] [1] 2 1 0 0 0
      (by decide) (by decide) (by decide) (by decide) (by decide)⟩

end OffsetsAntisymmetry

/-! ## `get_spatial_filter`: what the loops compute -/

/-- A cell that one iteration `i` transforms by `F`, and that no other iteration changes,
holds `F` of its initial contents after the loop. -/
theorem forLoop_cell_upd {β : Type} (body : Nat → (Nat → β) → (Nat → β)) (n : Nat)
    (mem : Nat → β) (p i : Nat) (F : β → β) (hi : i < n)
    (hwrite : ∀ q : Nat → β, body i q p = F (q p))
    (hkeep : ∀ i2, i2 ≠ i → i2 < n → ∀ q : Nat → β, body i2 q p = q p) :
    forLoop n body mem p = F (mem p) := by
  induction n with
  | zero => omega
  | succ n ih =>
    rw [forLoop_succ]
    by_cases hin : i = n
    · subst hin
      rw [hwrite, forLoop_keep _ _ _ _ (fun i2 h2 q => hkeep i2 (by omega) (by omega) q)]
    · have hlt : i < n := by omega
      rw [hkeep n (fun h => hin h.symm) (Nat.lt_succ_self n)]
      exact ih hlt (fun i2 h1 h2 => hkeep i2 h1 (Nat.lt_succ_of_lt h2))

/-- A cell to which every iteration `k` adds `f k` holds the initial contents plus the
finite sum after the loop. -/
theorem forLoop_cell_sum {α : Type} [AddCommMonoid α] (body : Nat → (Nat → α) → (Nat → α))
    (n : Nat) (mem : Nat → α) (c : Nat) (f : Nat → α)
    (h : ∀ k, k < n → ∀ q : Nat → α, body k q c = q c + f k) :
    forLoop n body mem c = mem c + ∑ k ∈ Finset.range n, f k := by
  induction n with
  | zero => simp [forLoop_zero]
  | succ n ih =>
    rw [forLoop_succ, h n (Nat.lt_succ_self n), ih (fun k hk => h k (Nat.lt_succ_of_lt hk)),
      Finset.sum_range_succ, add_assoc]

section FilterLemmas

variable {α : Type} [LinearOrderedField α] {T : Type}

/-- The cell `(j, i)` of the matrix returned by `get_spatial_filter`: the sum over the
neighbors of the normalized combined weight times the feature value. -/
theorem get_spatial_filter_cell (toDouble : T → α) (x : RMatrix T)
    (weights : Nat → (Nat → α) × (Nat → α)) (neighbors : List (List Nat)) (i j : Nat)
    (hi : i < neighbors.length) (hj : j < x.nrow) :
    (get_spatial_filter toDouble x weights neighbors).ptr (i * x.nrow + j)
      = ∑ k ∈ Finset.range (neighbors.getD i []).length,
          ((weights i).1 k * (weights i).2 k
              / ∑ l ∈ Finset.range (neighbors.getD i []).length,
                  (weights i).1 l * (weights i).2 l)
            * toDouble (x.ptr (((neighbors.getD i []).getD k 0 - 1) * x.nrow + j)) := by
  simp only [get_spatial_filter]
  apply forLoop_cell _ _ _ _ i _ hi
  · intro q
    rw [forLoop_cell_sum _ _ _ _ (fun k =>
      ((weights i).1 k * (weights i).2 k
          / ∑ l ∈ Finset.range (neighbors.getD i []).length,
              (weights i).1 l * (weights i).2 l)
        * toDouble (x.ptr (((neighbors.getD i []).getD k 0 - 1) * x.nrow + j)))]
    · rw [forLoop_cell _ _ _ _ j 0 hj]
      · rw [zero_add]
      · intro q2; simp
      · intro j2 h1 h2 q2
        apply Function.update_noteq
        intro h
        have := (cell_inj x.nrow j2 j i i h2 hj h).1
        omega
    · intro k _ q2
      rw [weight_sum_eq]
      refine forLoop_cell_upd _ _ _ _ j (fun t => t
        + ((weights i).1 k * (weights i).2 k
            / ∑ l ∈ Finset.range (neighbors.getD i []).length,
                (weights i).1 l * (weights i).2 l)
          * toDouble (x.ptr (((neighbors.getD i []).getD k 0 - 1) * x.nrow + j))) hj ?_ ?_
      · intro q3; simp
      · intro j2 h1 h2 q3
        apply Function.update_noteq
        intro h
        have := (cell_inj x.nrow j2 j i i h2 hj h).1
        omega
  · intro i2 h1 h2 q
    rw [forLoop_keep, forLoop_keep]
    · intro j2 hj2 q2
      apply Function.update_noteq
      intro h
      have := (cell_inj x.nrow j2 j i2 i hj2 hj h).2
      omega
    · intro k _ q2
      apply forLoop_keep
      intro j2 hj2 q3
      apply Function.update_noteq
      intro h
      have := (cell_inj x.nrow j2 j i2 i hj2 hj h).2
      omega

end FilterLemmas

/-! ## Claims on `get_spatial_filter` -/

section FilterClaims

variable {α : Type} [LinearOrderedField α] {T : Type}

/-- The normalized weights `w k / sum w` of a non-zero weight sum add up to 1. -/
theorem normalized_sum_one (w : Nat → α) (n : Nat)
    (hS : ∑ l ∈ Finset.range n, w l ≠ 0) :
    ∑ k ∈ Finset.range n, w k / ∑ l ∈ Finset.range n, w l = 1 := by
  rw [← Finset.sum_div]
  exact div_self hS

/-- A weighted average with non-negative weights of positive sum lies between any lower
and any upper bound of the averaged values. -/
theorem weighted_average_bounds (w v : Nat → α) (n : Nat) (lo hi : α)
    (hw : ∀ k, k < n → 0 ≤ w k) (hS : 0 < ∑ l ∈ Finset.range n, w l)
    (hv : ∀ k, k < n → lo ≤ v k ∧ v k ≤ hi) :
    lo ≤ ∑ k ∈ Finset.range n, w k / (∑ l ∈ Finset.range n, w l) * v k ∧
    ∑ k ∈ Finset.range n, w k / (∑ l ∈ Finset.range n, w l) * v k ≤ hi := by
  have hone := normalized_sum_one w n (ne_of_gt hS)
  have ha : ∀ k, k ∈ Finset.range n → 0 ≤ w k / ∑ l ∈ Finset.range n, w l := fun k hk =>
    div_nonneg (hw k (Finset.mem_range.mp hk)) (le_of_lt hS)
  constructor
  · calc lo = ∑ k ∈ Finset.range n, w k / (∑ l ∈ Finset.range n, w l) * lo := by
          rw [← Finset.sum_mul, hone, one_mul]
      _ ≤ ∑ k ∈ Finset.range n, w k / (∑ l ∈ Finset.range n, w l) * v k :=
          Finset.sum_le_sum (fun k hk =>
            mul_le_mul_of_nonneg_left (hv k (Finset.mem_range.mp hk)).1 (ha k hk))
  · calc ∑ k ∈ Finset.range n, w k / (∑ l ∈ Finset.range n, w l) * v k
        ≤ ∑ k ∈ Finset.range n, w k / (∑ l ∈ Finset.range n, w l) * hi :=
          Finset.sum_le_sum (fun k hk =>
            mul_le_mul_of_nonneg_left (hv k (Finset.mem_range.mp hk)).2 (ha k hk))
      _ = hi := by rw [← Finset.sum_mul, hone, one_mul]

/-- A cell that every iteration `k` transforms by `F k` holds, after the loop, the fold of
the `F k` over its initial contents. -/
theorem forLoop_cell_fold {β : Type} (body : Nat → (Nat → β) → (Nat → β)) (n : Nat)
    (mem : Nat → β) (c : Nat) (F : Nat → β → β)
    (h : ∀ k, k < n → ∀ q : Nat → β, body k q c = F k (q c)) :
    forLoop n body mem c = forLoop n F (mem c) := by
  induction n with
  | zero => simp [forLoop_zero]
  | succ n ih =>
    rw [forLoop_succ, forLoop_succ, h n (Nat.lt_succ_self n),
      ih (fun k hk => h k (Nat.lt_succ_of_lt hk))]

/-- The cell `(j, i)` of the matrix returned by `get_spatial_filter_ops`, for any
arithmetic: the sum, accumulated from 0 in list order, of the terms
`(alpha[k] * beta[k] / auc) * x[j, p_k]`. -/
theorem get_spatial_filter_ops_cell {β : Type} [Zero β] (ops : DoubleOps β)
    (toDouble : T → β) (x : RMatrix T) (weights : Nat → (Nat → β) × (Nat → β))
    (neighbors : List (List Nat)) (i j : Nat) (hi : i < neighbors.length)
    (hj : j < x.nrow) :
    (get_spatial_filter_ops ops toDouble x weights neighbors).ptr (i * x.nrow + j)
      = forLoop (neighbors.getD i []).length
          (fun k acc =>
            ops.add acc
              (ops.mul
                (ops.div (ops.mul ((weights i).1 k) ((weights i).2 k))
                  (forLoop (neighbors.getD i []).length
                    (fun l auc => ops.add auc (ops.mul ((weights i).1 l) ((weights i).2 l)))
                    0))
                (toDouble (x.ptr (((neighbors.getD i []).getD k 0 - 1) * x.nrow + j)))))
          0 := by
  simp only [get_spatial_filter_ops]
  apply forLoop_cell _ _ _ _ i _ hi
  · intro q
    rw [forLoop_cell_fold _ _ _ _ (fun k acc =>
      ops.add acc
        (ops.mul
          (ops.div (ops.mul ((weights i).1 k) ((weights i).2 k))
            (forLoop (neighbors.getD i []).length
              (fun l auc => ops.add auc (ops.mul ((weights i).1 l) ((weights i).2 l)))
              0))
          (toDouble (x.ptr (((neighbors.getD i []).getD k 0 - 1) * x.nrow + j)))))]
    · rw [forLoop_cell _ _ _ _ j 0 hj]
      · intro q2; simp
      · intro j2 h1 h2 q2
        apply Function.update_noteq
        intro h
        have := (cell_inj x.nrow j2 j i i h2 hj h).1
        omega
    · intro k _ q2
      refine forLoop_cell_upd _ _ _ _ j (fun t => ops.add t
        (ops.mul
          (ops.div (ops.mul ((weights i).1 k) ((weights i).2 k))
            (forLoop (neighbors.getD i []).length
              (fun l auc => ops.add auc (ops.mul ((weights i).1 l) ((weights i).2 l)))
              0))
          (toDouble (x.ptr (((neighbors.getD i []).getD k 0 - 1) * x.nrow + j))))) hj ?_ ?_
      · intro q3; simp
      · intro j2 h1 h2 q3
        apply Function.update_noteq
        intro h
        have := (cell_inj x.nrow j2 j i i h2 hj h).1
        omega
  · intro i2 h1 h2 q
    rw [forLoop_keep, forLoop_keep]
    · intro j2 hj2 q2
      apply Function.update_noteq
      intro h
      have := (cell_inj x.nrow j2 j i2 i hj2 hj h).2
      omega
    · intro k _ q2
      apply forLoop_keep
      intro j2 hj2 q3
      apply Function.update_noteq
      intro h
      have := (cell_inj x.nrow j2 j i2 i hj2 hj h).2
      omega

/-- With the exact operations `get_spatial_filter_ops` is `get_spatial_filter`. -/
theorem get_spatial_filter_ops_exact (toDouble : T → α) (x : RMatrix T)
    (weights : Nat → (Nat → α) × (Nat → α)) (neighbors : List (List Nat)) :
    get_spatial_filter_ops (exact_ops α) toDouble x weights neighbors
      = get_spatial_filter toDouble x weights neighbors := rfl

/-- Claim C11, as amended. For every point `i` whose combined weights `alpha * beta` are all
non-negative with a strictly positive sum, every component `j` of the column of the
`get_spatial_filter` output for `i` is the sum, accumulated from 0 in list order with the
double operations, of the terms `(alpha[k] * beta[k] / auc) * x[j, p_k]` over the points
`p_k` of the neighbor vector of `i`; evaluated with exact operations this sum lies between
the minimum `mn` and the maximum `mx` of `x[j, p]` over these points.  (With the rounding
operations of doubles the returned value can leave this interval by a rounding error.) -/
theorem get_spatial_filter_convex (ops : DoubleOps α) (toDouble : T → α) (x : RMatrix T)
    (weights : Nat → (Nat → α) × (Nat → α)) (neighbors : List (List Nat)) (i j : Nat)
    (hi : i < neighbors.length) (hj : j < x.nrow)
    (hw : ∀ k, k < (neighbors.getD i []).length → 0 ≤ (weights i).1 k * (weights i).2 k)
    (hS : 0 < ∑ l ∈ Finset.range (neighbors.getD i []).length,
      (weights i).1 l * (weights i).2 l)
    (mn mx : α)
    (hmn : IsLeast ((fun k => toDouble (x.entry j ((neighbors.getD i []).getD k 0 - 1)))
      '' Set.Iio (neighbors.getD i []).length) mn)
    (hmx : IsGreatest ((fun k => toDouble (x.entry j ((neighbors.getD i []).getD k 0 - 1)))
      '' Set.Iio (neighbors.getD i []).length) mx) :
    (get_spatial_filter_ops ops toDouble x weights neighbors).entry j i
      = forLoop (neighbors.getD i []).length
          (fun k acc =>
            ops.add acc
              (ops.mul
                (ops.div (ops.mul ((weights i).1 k) ((weights i).2 k))
                  (forLoop (neighbors.getD i []).length
                    (fun l auc => ops.add auc (ops.mul ((weights i).1 l) ((weights i).2 l)))
                    0))
                (toDouble (x.entry j ((neighbors.getD i []).getD k 0 - 1)))))
          0 ∧
    get_spatial_filter_ops (exact_ops α) toDouble x weights neighbors
      = get_spatial_filter toDouble x weights neighbors ∧
    mn ≤ (get_spatial_filter toDouble x weights neighbors).entry j i ∧
    (get_spatial_filter toDouble x weights neighbors).entry j i ≤ mx := by
  refine ⟨get_spatial_filter_ops_cell ops toDouble x weights neighbors i j hi hj,
    get_spatial_filter_ops_exact toDouble x weights neighbors, ?_⟩
  have hcell := get_spatial_filter_cell toDouble x weights neighbors i j hi hj
  have hentry : (get_spatial_filter toDouble x weights neighbors).entry j i
      = (get_spatial_filter toDouble x weights neighbors).ptr (i * x.nrow + j) := rfl
  rw [hentry, hcell]
  apply weighted_average_bounds (fun k => (weights i).1 k * (weights i).2 k)
    (fun k => toDouble (x.ptr (((neighbors.getD i []).getD k 0 - 1) * x.nrow + j)))
    (neighbors.getD i []).length mn mx hw hS
  intro k hk
  exact ⟨hmn.2 ⟨k, Set.mem_Iio.mpr hk, rfl⟩, hmx.2 ⟨k, Set.mem_Iio.mpr hk, rfl⟩⟩

/-- Claim C12. For every point `i` whose neighbor vector has size 1 and contains only `i`
itself (the 1-based index `i + 1`), with a non-zero combined weight `alpha * beta`, the
column of the `get_spatial_filter` output for `i` is the feature vector `x[., i]` of `i`,
unchanged. -/
theorem get_spatial_filter_identity (toDouble : T → α) (x : RMatrix T)
    (weights : Nat → (Nat → α) × (Nat → α)) (neighbors : List (List Nat)) (i : Nat)
    (hi : i < neighbors.length) (hnb : neighbors.getD i [] = [i + 1])
    (hw : (weights i).1 0 * (weights i).2 0 ≠ 0) (j : Nat) (hj : j < x.nrow) :
    (get_spatial_filter toDouble x weights neighbors).entry j i = toDouble (x.entry j i) := by
  have hcell := get_spatial_filter_cell toDouble x weights neighbors i j hi hj
  have hentry : (get_spatial_filter toDouble x weights neighbors).entry j i
      = (get_spatial_filter toDouble x weights neighbors).ptr (i * x.nrow + j) := rfl
  rw [hentry, hcell, hnb]
  simp only [List.length_singleton, Finset.sum_range_one, List.getD_cons_zero,
    Nat.add_sub_cancel, RMatrix.entry]
  rw [div_self hw, one_mul]

end FilterClaims

section FilterWitnesses

theorem two_neighbors_first : two_neighbors.getD 0 [] = [1, 2] := rfl

theorem two_features_values (k : Nat) (hk : k < 2) :
    (fun k => id ((two_features ℚ).entry 0 ((two_neighbors.getD 0 []).getD k 0 - 1))) k
      = if k = 0 then 0 else 2 := by
  interval_cases k <;> simp [two_features, two_neighbors, RMatrix.entry, ptrOfList]

/-- Witness of C11, as amended: feature values 0 and 2, unit weights, the first point with
the neighbors 1 and 2: in exact arithmetic the smoothed value lies between 0 and 2. -/
theorem get_spatial_filter_convex_witness :
    0 < two_neighbors.length ∧ 0 < (two_features ℚ).nrow ∧
    (∀ k, k < (two_neighbors.getD 0 []).length →
      0 ≤ (unit_weights ℚ 0).1 k * (unit_weights ℚ 0).2 k) ∧
    (0 < ∑ l ∈ Finset.range (two_neighbors.getD 0 []).length,
      (unit_weights ℚ 0).1 l * (unit_weights ℚ 0).2 l) ∧
    IsLeast ((fun k => id ((two_features ℚ).entry 0 ((two_neighbors.getD 0 []).getD k 0 - 1)))
      '' Set.Iio (two_neighbors.getD 0 []).length) 0 ∧
    IsGreatest
      ((fun k => id ((two_features ℚ).entry 0 ((two_neighbors.getD 0 []).getD k 0 - 1)))
      '' Set.Iio (two_neighbors.getD 0 []).length) 2 ∧
    (0 ≤ (get_spatial_filter id (two_features ℚ) (unit_weights ℚ) two_neighbors).entry 0 0 ∧
      (get_spatial_filter id (two_features ℚ) (unit_weights ℚ) two_neighbors).entry 0 0
        ≤ 2) := by
  have h1 : 0 < two_neighbors.length := by simp [two_neighbors]
  have h2 : 0 < (two_features ℚ).nrow := by simp [two_features]
  have h3 : ∀ k, k < (two_neighbors.getD 0 []).length →
      0 ≤ (unit_weights ℚ 0).1 k * (unit_weights ℚ 0).2 k := by
    intro k _; simp [unit_weights]
  have h4 : 0 < ∑ l ∈ Finset.range (two_neighbors.getD 0 []).length,
      (unit_weights ℚ 0).1 l * (unit_weights ℚ 0).2 l := by
    simp [two_neighbors, unit_weights]
  have h5 : IsLeast
      ((fun k => id ((two_features ℚ).entry 0 ((two_neighbors.getD 0 []).getD k 0 - 1)))
        '' Set.Iio (two_neighbors.getD 0 []).length) 0 := by
    refine ⟨⟨0, by simp [two_neighbors], by rw [two_features_values 0 (by omega)]; simp⟩, ?_⟩
    rintro y ⟨k, hk, rfl⟩
    have hk2 : k < 2 := by simpa [two_neighbors] using hk
    rw [two_features_values k hk2]
    split_ifs <;> norm_num
  have h6 : IsGreatest
      ((fun k => id ((two_features ℚ).entry 0 ((two_neighbors.getD 0 []).getD k 0 - 1)))
        '' Set.Iio (two_neighbors.getD 0 []).length) 2 := by
    refine ⟨⟨1, by simp [two_neighbors], by rw [two_features_values 1 (by omega)]; simp⟩, ?_⟩
    rintro y ⟨k, hk, rfl⟩
    have hk2 : k < 2 := by simpa [two_neighbors] using hk
    rw [two_features_values k hk2]
    split_ifs <;> norm_num
  exact ⟨h1, h2, h3, h4, h5, h6,
    (get_spatial_filter_convex (exact_ops ℚ) id (two_features ℚ) (unit_weights ℚ)
      two_neighbors 0 0 h1 h2 h3 h4 0 2 h5 h6).2.2⟩

/-- Counterexample to C11 as stated: three neighbors with the feature value `0.875` and unit
weights.  Minimum and maximum of the neighbor values are both `0.875`, the weights are
non-negative with the positive sum 3, but with the rounding of doubles (`1.0 / 3.0` and
`(1.0 / 3.0) * 0.875` rounded to nearest) the returned value is
`7881299347898367 / 2^53 = 0.87499999999999989`, below the minimum. -/
theorem get_spatial_filter_rounding_counterexample :
    (∀ k, k < (([[1, 2, 3]] : List (List Nat)).getD 0 []).length →
      0 ≤ (unit_weights ℚ 0).1 k * (unit_weights ℚ 0).2 k) ∧
    (0 < ∑ l ∈ Finset.range (([[1, 2, 3]] : List (List Nat)).getD 0 []).length,
      (unit_weights ℚ 0).1 l * (unit_weights ℚ 0).2 l) ∧
    IsLeast ((fun k => id ((eighths_features ℚ).entry 0
        ((([[1, 2, 3]] : List (List Nat)).getD 0 []).getD k 0 - 1)))
      '' Set.Iio (([[1, 2, 3]] : List (List Nat)).getD 0 []).length) (7 / 8) ∧
    IsGreatest ((fun k => id ((eighths_features ℚ).entry 0
        ((([[1, 2, 3]] : List (List Nat)).getD 0 []).getD k 0 - 1)))
      '' Set.Iio (([[1, 2, 3]] : List (List Nat)).getD 0 []).length) (7 / 8) ∧
    (get_spatial_filter_ops ieee_ops_example id (eighths_features ℚ) (unit_weights ℚ)
        [[1, 2, 3]]).entry 0 0 = 7881299347898367 / 9007199254740992 ∧
    ¬ (7 / 8 ≤ (get_spatial_filter_ops ieee_ops_example id (eighths_features ℚ)
        (unit_weights ℚ) [[1, 2, 3]]).entry 0 0) := by
  have hv : ∀ k, k < 3 →
      (eighths_features ℚ).entry 0 ((([1, 2, 3] : List Nat)).getD k 0 - 1) = 7 / 8 := by
    intro k hk
    interval_cases k <;> simp [eighths_features, RMatrix.entry, ptrOfList]
  have hval : (get_spatial_filter_ops ieee_ops_example id (eighths_features ℚ)
      (unit_weights ℚ) [[1, 2, 3]]).entry 0 0 = 7881299347898367 / 9007199254740992 := by
    have hc := get_spatial_filter_ops_cell ieee_ops_example id (eighths_features ℚ)
      (unit_weights ℚ) [[1, 2, 3]] 0 0 (by simp) (by simp [eighths_features])
    have he : (get_spatial_filter_ops ieee_ops_example id (eighths_features ℚ)
        (unit_weights ℚ) [[1, 2, 3]]).entry 0 0
        = (get_spatial_filter_ops ieee_ops_example id (eighths_features ℚ)
            (unit_weights ℚ) [[1, 2, 3]]).ptr (0 * (eighths_features ℚ).nrow + 0) := rfl
    rw [he, hc]
    simp [forLoop, List.range_succ, ieee_ops_example, third_double, term_double,
      unit_weights, eighths_features, ptrOfList]
    norm_num
  refine ⟨?_, ?_, ?_, ?_, hval, ?_⟩
  · intro k _; simp [unit_weights]
  · simp [unit_weights]
  · refine ⟨⟨0, by simp, by simpa using hv 0 (by omega)⟩, ?_⟩
    rintro y ⟨k, hk, rfl⟩
    have hk3 : k < 3 := by simpa using hk
    have := hv k hk3
    simp only [List.getD_cons_zero, id] at this ⊢
    rw [this]
  · refine ⟨⟨0, by simp, by simpa using hv 0 (by omega)⟩, ?_⟩
    rintro y ⟨k, hk, rfl⟩
    have hk3 : k < 3 := by simpa using hk
    have := hv k hk3
    simp only [List.getD_cons_zero, id] at this ⊢
    rw [this]
  · rw [hval]; norm_num

/-- Witness of C12: the second point has only itself as neighbor; its smoothed feature is
its own feature value 2. -/
theorem get_spatial_filter_identity_witness :
    1 < two_neighbors.length ∧ two_neighbors.getD 1 [] = [1 + 1] ∧
    (unit_weights ℚ 1).1 0 * (unit_weights ℚ 1).2 0 ≠ 0 ∧ 0 < (two_features ℚ).nrow ∧
    (two_features ℚ).entry 0 1 = 2 ∧
    (get_spatial_filter id (two_features ℚ) (unit_weights ℚ) two_neighbors).entry 0 1
      = id ((two_features ℚ).entry 0 1) := by
  have h1 : 1 < two_neighbors.length := by simp [two_neighbors]
  have h2 : two_neighbors.getD 1 [] = [1 + 1] := rfl
  have h3 : (unit_weights ℚ 1).1 0 * (unit_weights ℚ 1).2 0 ≠ 0 := by simp [unit_weights]
  have h4 : 0 < (two_features ℚ).nrow := by simp [two_features]
  have h5 : (two_features ℚ).entry 0 1 = 2 := by
    simp [two_features, RMatrix.entry, ptrOfList]
  exact ⟨h1, h2, h3, h4, h5,
    get_spatial_filter_identity id (two_features ℚ) (unit_weights ℚ) two_neighbors 1 h1 h2 h3
      0 h4⟩

end FilterWitnesses

/-! ## Further claims on `get_spatial_scores` -/

section ScoresSelf

variable {T1 T2 : Type}

/-- The cell `(i, k)` of the matrix returned by `get_spatial_scores`, as the loops compute
it: the sum over the neighbors of the normalized weight times the sum over the features of
`dist * dist / (sd[j] * sd[j])`. -/
theorem get_spatial_scores_cell {α : Type} [LinearOrderedField α] (toDouble1 : T1 → α)
    (toDouble2 : T2 → α) (x : RMatrix T1) (centers : RMatrix T2)
    (weights : Nat → (Nat → α) × (Nat → α)) (neighbors : List (List Nat)) (sd : Nat → α)
    (i k : Nat) (hi : i < neighbors.length) (hk : k < centers.ncol) :
    (get_spatial_scores toDouble1 toDouble2 x centers weights neighbors sd).ptr
        (k * neighbors.length + i)
      = ∑ l ∈ Finset.range (neighbors.getD i []).length,
          ((weights i).1 l * (weights i).2 l
              / ∑ l2 ∈ Finset.range (neighbors.getD i []).length,
                  (weights i).1 l2 * (weights i).2 l2)
            * ∑ j ∈ Finset.range x.nrow,
                (toDouble1 (x.ptr (((neighbors.getD i []).getD l 0 - 1) * x.nrow + j))
                    - toDouble2 (centers.ptr (k * x.nrow + j)))
                  * (toDouble1 (x.ptr (((neighbors.getD i []).getD l 0 - 1) * x.nrow + j))
                    - toDouble2 (centers.ptr (k * x.nrow + j)))
                  / (sd j * sd j) := by
  simp only [get_spatial_scores]
  apply forLoop_cell _ _ _ _ i _ hi
  · intro q
    apply forLoop_cell _ _ _ _ k _ hk
    · intro q2
      rw [forLoop_accum_cell, weight_sum_eq]
      simp only [Function.update_same, zero_add]
      apply Finset.sum_congr rfl
      intro l _
      congr 1
      rw [forLoop_add, zero_add]
    · intro k2 h1 _ q2
      rw [forLoop_accum_cell]
      have hne : k * neighbors.length + i ≠ k2 * neighbors.length + i := by
        intro h
        have := (cell_inj neighbors.length i i k2 k hi hi h).2
        omega
      rw [Function.update_noteq hne, Function.update_noteq hne]
  · intro i2 h1 h2 q
    apply forLoop_keep
    intro k2 _ q2
    rw [forLoop_accum_cell]
    have hne : k * neighbors.length + i ≠ k2 * neighbors.length + i2 := by
      intro h
      have := (cell_inj neighbors.length i2 i k2 k h2 hi h).1
      omega
    rw [Function.update_noteq hne, Function.update_noteq hne]

/-- Claim C13. For every point `i` whose neighbor vector has size 1 (only `i` itself, the
1-based index `i + 1`) with a non-zero combined weight, and every center `k` whose feature
vector is the feature vector `x[., i]` of `i`, with all `sd[j]` strictly positive,
`get_spatial_scores` returns `score[i, k] = 0`. -/
theorem get_spatial_scores_self (toDouble1 : T1 → ℝ) (toDouble2 : T2 → ℝ)
    (x : RMatrix T1) (centers : RMatrix T2) (weights : Nat → (Nat → ℝ) × (Nat → ℝ))
    (neighbors : List (List Nat)) (sd : Nat → ℝ) (i k : Nat)
    (hi : i < neighbors.length) (hk : k < centers.ncol)
    (hnb : neighbors.getD i [] = [i + 1])
    (hw : (weights i).1 0 * (weights i).2 0 ≠ 0)
    (hc : ∀ j, j < x.nrow →
      toDouble2 (centers.ptr (k * x.nrow + j)) = toDouble1 (x.ptr (i * x.nrow + j)))
    (hsd : ∀ j, j < x.nrow → 0 < sd j) :
    (get_spatial_scores toDouble1 toDouble2 x centers weights neighbors sd).entry i k = 0 := by
  have hcell := get_spatial_scores_cell toDouble1 toDouble2 x centers weights neighbors sd
    i k hi hk
  have hentry : (get_spatial_scores toDouble1 toDouble2 x centers weights neighbors sd).entry
      i k = (get_spatial_scores toDouble1 toDouble2 x centers weights neighbors sd).ptr
        (k * neighbors.length + i) := rfl
  rw [hentry, hcell, hnb]
  simp only [List.length_singleton, Finset.sum_range_one, List.getD_cons_zero,
    Nat.add_sub_cancel]
  rw [div_self hw, one_mul]
  apply Finset.sum_eq_zero
  intro j hj
  have hj2 : j < x.nrow := Finset.mem_range.mp hj
  have hs : sd j * sd j ≠ 0 := (mul_pos (hsd j hj2) (hsd j hj2)).ne.symm
  rw [hc j hj2, div_eq_iff hs]
  ring

/-- Witness of C13: feature values 0 and 2; the second point has only itself as neighbor
and the second center has its feature value 2. -/
theorem get_spatial_scores_self_witness :
    1 < two_neighbors.length ∧ 1 < (two_features ℝ).ncol ∧
    two_neighbors.getD 1 [] = [1 + 1] ∧
    (unit_weights ℝ 1).1 0 * (unit_weights ℝ 1).2 0 ≠ 0 ∧
    (∀ j, j < (two_features ℝ).nrow →
      id ((two_features ℝ).ptr (1 * (two_features ℝ).nrow + j))
        = id ((two_features ℝ).ptr (1 * (two_features ℝ).nrow + j))) ∧
    (∀ j, j < (two_features ℝ).nrow → (0 : ℝ) < (fun _ => 1) j) ∧
    (get_spatial_scores id id (two_features ℝ) (two_features ℝ) (unit_weights ℝ)
        two_neighbors (fun _ => 1)).entry 1 1 = 0 := by
  have h1 : 1 < two_neighbors.length := by simp [two_neighbors]
  have h2 : 1 < (two_features ℝ).ncol := by simp [two_features]
  have h3 : two_neighbors.getD 1 [] = [1 + 1] := rfl
  have h4 : (unit_weights ℝ 1).1 0 * (unit_weights ℝ 1).2 0 ≠ 0 := by simp [unit_weights]
  exact ⟨h1, h2, h3, h4, fun _ _ => rfl, fun _ _ => one_pos,
    get_spatial_scores_self id id (two_features ℝ) (two_features ℝ) (unit_weights ℝ)
      two_neighbors (fun _ => 1) 1 1 h1 h2 h3 h4 (fun _ _ => rfl) (fun _ _ => one_pos)⟩

end ScoresSelf

/-! ## Claims on the minkowski metric of `find_neighbors` -/

section Minkowski

/-- Claim C15 fails on the code (missing `break` after the `MINKOWSKI` case). For the two
points `(0,0)` and `(1/4,0)` in one group and `R = 3/8`, the documented Minkowski distance
`(|1/4|^2 + |0|^2)^(1/2) = 1/4` is within `R`, but `find_neighbors` returns the vectors
`[1]` and `[2]`: in the first dimension the accumulator `1/16` is replaced by
`|d| = 1/4`, and the final test is `(1/4)^(1/2) = 1/2 <= 3/8`, which fails. -/
theorem find_neighbors_minkowski_defect :
    find_neighbors (⟨Real.sqrt, Real.exp, fun x y => x ^ y, fun _ => 0⟩ : CMath ℝ) id
        (near_points ℝ) (3 / 8) (fun _ => 1) MINKOWSKI = [[1], [2]] ∧
    (∑ j ∈ Finset.range (near_points ℝ).ncol,
        |(near_points ℝ).entry 0 j - (near_points ℝ).entry 1 j|
          ^ ((near_points ℝ).ncol : ℝ)) ^ (1 / ((near_points ℝ).ncol : ℝ)) ≤ 3 / 8 := by
  have hhalf : ((1 : ℝ) / 4) ^ ((1 : ℝ) / 2) = 1 / 2 := by
    rw [← Real.sqrt_eq_rpow, show (1 : ℝ) / 4 = (1 / 2) ^ 2 by norm_num,
      Real.sqrt_sq (by norm_num)]
  have h16 : ((1 : ℝ) / 16) ^ ((1 : ℝ) / 2) = 1 / 4 := by
    rw [← Real.sqrt_eq_rpow, show (1 : ℝ) / 16 = (1 / 4) ^ 2 by norm_num,
      Real.sqrt_sq (by norm_num)]
  constructor
  · rw [find_neighbors_eq]
    simp [pair_d2, forLoop, List.range_succ, accumulate, accept, pow_inv_ncol, nb_flag,
      near_points, ptrOfList, RADIAL, MANHATTAN, MINKOWSKI, List.filter_cons]
    norm_num [abs_of_pos]
    rw [hhalf]
    norm_num
  · simp [near_points, RMatrix.entry, ptrOfList, Finset.sum_range_succ]
    norm_num [abs_of_pos]
    rw [h16]
    norm_num

end Minkowski

section MinkowskiInt

/-- For an integer difference `d` and at least one dimension, `|d| <= |d|^ncol`. -/
theorem abs_int_le_pow (d : Int) (ncol : Nat) (hn : 1 ≤ ncol) :
    |(d : ℝ)| ≤ |(d : ℝ)| ^ ncol := by
  by_cases hd : d = 0
  · subst hd
    simp [zero_pow (by omega : ncol ≠ 0)]
  · have h1 : (1 : ℝ) ≤ |(d : ℝ)| := by
      have hz : 1 ≤ |d| := Int.one_le_abs hd
      have : ((1 : Int) : ℝ) ≤ ((|d| : Int) : ℝ) := Int.cast_le.mpr hz
      simpa using this
    calc |(d : ℝ)| = |(d : ℝ)| ^ 1 := (pow_one _).symm
      _ ≤ |(d : ℝ)| ^ ncol := pow_le_pow_right₀ h1 hn

/-- One dimension step of the minkowski metric on an integer difference: the value added
is `|d|^ncol`, and the chebyshev comparison that follows keeps the accumulator. -/
theorem accumulate_minkowski_int (m : CMath ℝ) (hm : m.IsIdeal) (ncol : Nat) (hn : 1 ≤ ncol)
    (d : Int) (acc : ℝ) (hacc : 0 ≤ acc) :
    accumulate m MINKOWSKI ncol (d : ℝ) acc = acc + |(d : ℝ)| ^ ncol := by
  have hp : m.pow |(d : ℝ)| (ncol : ℝ) = |(d : ℝ)| ^ ncol := by
    rw [hm.pow_eq _ _ (abs_nonneg _) (Nat.cast_nonneg ncol), Real.rpow_natCast]
  have hle : ¬ |(d : ℝ)| > acc + |(d : ℝ)| ^ ncol := by
    have := abs_int_le_pow d ncol hn
    rw [not_lt]
    linarith
  simp only [accumulate, RADIAL, MANHATTAN, MINKOWSKI, hp]
  norm_num
  intro h
  exact absurd h hle

/-- The accumulator of the minkowski metric on integer coordinates, after `n` dimensions. -/
theorem pair_d2_minkowski_int_loop (m : CMath ℝ) (hm : m.IsIdeal) (coord : RMatrix Int)
    (hn : 1 ≤ coord.ncol) (i ii n : Nat) :
    forLoop n
        (fun j d2 =>
          accumulate m MINKOWSKI coord.ncol
            (((coord.ptr (j * coord.nrow + i) - coord.ptr (j * coord.nrow + ii) : Int)) : ℝ)
            d2)
        0
      = ∑ j ∈ Finset.range n,
          |((coord.entry i j - coord.entry ii j : Int) : ℝ)| ^ coord.ncol := by
  induction n with
  | zero => simp [forLoop_zero]
  | succ n ih =>
    rw [forLoop_succ, ih, Finset.sum_range_succ]
    exact accumulate_minkowski_int m hm coord.ncol hn _ _
      (Finset.sum_nonneg (fun j _ => pow_nonneg (abs_nonneg _) _))

theorem pair_d2_minkowski_int (m : CMath ℝ) (hm : m.IsIdeal) (coord : RMatrix Int)
    (hn : 1 ≤ coord.ncol) (i ii : Nat) :
    pair_d2 m (fun z : Int => (z : ℝ)) coord MINKOWSKI i ii
      = ∑ j ∈ Finset.range coord.ncol,
          |((coord.entry i j - coord.entry ii j : Int) : ℝ)| ^ coord.ncol :=
  pair_d2_minkowski_int_loop m hm coord hn i ii coord.ncol

/-- Claim C19. For integer coordinates (the `int` instantiation) and at least one dimension
the missing `break` after the `MINKOWSKI` case has no effect: every dimension step adds
`|diff|^d` and the chebyshev comparison keeps the accumulator, the accumulated value is
the sum over the dimensions of `|diff|^d`, and the accepted indices are those of the
same-group points with `(sum |diff|^d)^(1/d) <= R`. -/
theorem find_neighbors_minkowski_int (m : CMath ℝ) (hm : m.IsIdeal) (coord : RMatrix Int)
    (hn : 1 ≤ coord.ncol) (R : ℝ) (pGroups : Nat → Int) :
    (∀ (d : Int) (acc : ℝ), 0 ≤ acc →
      accumulate m MINKOWSKI coord.ncol (d : ℝ) acc = acc + |(d : ℝ)| ^ coord.ncol) ∧
    (∀ i ii, pair_d2 m (fun z : Int => (z : ℝ)) coord MINKOWSKI i ii
      = ∑ j ∈ Finset.range coord.ncol,
          |((coord.entry i j - coord.entry ii j : Int) : ℝ)| ^ coord.ncol) ∧
    ∀ i, i < coord.nrow → ∀ x,
      x ∈ (find_neighbors m (fun z : Int => (z : ℝ)) coord R pGroups MINKOWSKI).getD i []
        ↔ ∃ ii, ii < coord.nrow ∧ x = ii + 1 ∧ pGroups ii = pGroups i ∧
            (∑ j ∈ Finset.range coord.ncol,
              |((coord.entry i j - coord.entry ii j : Int) : ℝ)| ^ coord.ncol)
                ^ (1 / (coord.ncol : ℝ)) ≤ R := by
  refine ⟨fun d acc hacc => accumulate_minkowski_int m hm coord.ncol hn d acc hacc,
    fun i ii => pair_d2_minkowski_int m hm coord hn i ii, ?_⟩
  intro i hi x
  rw [mem_find_neighbors m _ coord R pGroups MINKOWSKI i hi]
  have hflag : ∀ ii, nb_flag m (fun z : Int => (z : ℝ)) coord R pGroups MINKOWSKI i ii = true
      ↔ pGroups ii = pGroups i ∧
        (∑ j ∈ Finset.range coord.ncol,
          |((coord.entry i j - coord.entry ii j : Int) : ℝ)| ^ coord.ncol)
            ^ (1 / (coord.ncol : ℝ)) ≤ R := by
    intro ii
    have hnn : (0 : ℝ) ≤ ∑ j ∈ Finset.range coord.ncol,
        |((coord.entry i j - coord.entry ii j : Int) : ℝ)| ^ coord.ncol :=
      Finset.sum_nonneg (fun j _ => pow_nonneg (abs_nonneg _) _)
    have hne : coord.ncol ≠ 0 := by omega
    unfold nb_flag
    rw [pair_d2_minkowski_int m hm coord hn i ii]
    by_cases hg : pGroups i = pGroups ii
    · have hg2 : pGroups ii = pGroups i := hg.symm
      simp only [hg, ne_eq, not_true_eq_false, if_false, accept, pow_inv_ncol, hne,
        RADIAL, MANHATTAN, MINKOWSKI]
      rw [hm.pow_eq _ _ hnn (by positivity)]
      norm_num
    · have hg2 : ¬ pGroups ii = pGroups i := fun h => hg h.symm
      simp [hg, hg2]
  constructor
  · rintro ⟨ii, h1, h2, h3⟩
    exact ⟨ii, h1, h2, (hflag ii).mp h3⟩
  · rintro ⟨ii, h1, h2, h3⟩
    exact ⟨ii, h1, h2, (hflag ii).mpr h3⟩

end MinkowskiInt

section MinkowskiIntWitness

/-- Witness of C19: the integer points `(0,0)` and `(3,4)` with `R = 5`: the documented
distance is `(9 + 16)^(1/2) = 5`, and each point is in the vector of the other. -/
theorem find_neighbors_minkowski_int_witness :
    ∃ m : CMath ℝ, m.IsIdeal ∧ 1 ≤ int_points.ncol ∧
      find_neighbors m (fun z : Int => (z : ℝ)) int_points 5 (fun _ => 1) MINKOWSKI
        = [[1, 2], [1, 2]] ∧
      ((∀ (d : Int) (acc : ℝ), 0 ≤ acc →
          accumulate m MINKOWSKI int_points.ncol (d : ℝ) acc
            = acc + |(d : ℝ)| ^ int_points.ncol) ∧
        (∀ i ii, pair_d2 m (fun z : Int => (z : ℝ)) int_points MINKOWSKI i ii
          = ∑ j ∈ Finset.range int_points.ncol,
              |((int_points.entry i j - int_points.entry ii j : Int) : ℝ)|
                ^ int_points.ncol) ∧
        ∀ i, i < int_points.nrow → ∀ x,
          x ∈ (find_neighbors m (fun z : Int => (z : ℝ)) int_points 5 (fun _ => 1)
              MINKOWSKI).getD i []
            ↔ ∃ ii, ii < int_points.nrow ∧ x = ii + 1 ∧ (1 : Int) = 1 ∧
                (∑ j ∈ Finset.range int_points.ncol,
                  |((int_points.entry i j - int_points.entry ii j : Int) : ℝ)|
                    ^ int_points.ncol) ^ (1 / (int_points.ncol : ℝ)) ≤ 5) := by
  have hm : (⟨Real.sqrt, Real.exp, fun x y => x ^ y, fun _ => 0⟩ : CMath ℝ).IsIdeal :=
    ⟨fun _ _ => rfl, fun _ => rfl, fun _ _ _ _ => rfl, fun _ _ => rfl⟩
  have hn : 1 ≤ int_points.ncol := by simp [int_points]
  have h25 : ((25 : ℝ)) ^ ((1 : ℝ) / 2) = 5 := by
    rw [← Real.sqrt_eq_rpow, show (25 : ℝ) = 5 ^ 2 by norm_num, Real.sqrt_sq (by norm_num)]
  refine ⟨_, hm, hn, ?_, find_neighbors_minkowski_int _ hm int_points hn 5 (fun _ => 1)⟩
  rw [find_neighbors_eq]
  simp [pair_d2, forLoop, List.range_succ, accumulate, accept, pow_inv_ncol, nb_flag,
    int_points, ptrOfList, RADIAL, MANHATTAN, MINKOWSKI, List.filter_cons]
  norm_num
  rw [h25]
  simp

end MinkowskiIntWitness

/-! ## Further claims on `get_spatial_weights` -/

section BilateralRange

variable {T1 T2 : Type} [Sub T1] [Zero T2] [DecidableEq T2]

end BilateralRange

section BilateralRangeExample

end BilateralRangeExample

/-! ## The tie-break of the center index -/

section CenterTieBreak

variable {α : Type} [LinearOrderedField α] {T1 T2 : Type} [Sub T1] [Zero T2] [DecidableEq T2]

/-- Claim C16, as amended. In `get_spatial_weights`, when several rows of the offsets
matrix are zero in every dimension, the center index used is the last such row `k` in
list order: it is the value of `k` after the first loop, and the bilateral beta values are
computed from the squared feature distances to the row `k`. -/
theorem get_spatial_weights_center_last (m : CMath α) (toDouble1 : T1 → α)
    (toDouble2 : T2 → α) (x : RMatrix T1) (offsets : RMatrix T2) (sigma : α) (k : Nat)
    (hk : k < offsets.nrow) (hz : zero_row offsets k)
    (hlast : ∀ i, k < i → i < offsets.nrow → ¬ zero_row offsets i) (mx mn : α)
    (hmx : IsGreatest (spec_feature_d2 toDouble1 x k '' Set.Iio offsets.nrow) mx)
    (hmn : IsLeast (spec_feature_d2 toDouble1 x k '' Set.Iio offsets.nrow) mn) :
    (alpha_loop m toDouble2 offsets sigma).1 = k ∧
    (get_spatial_weights m toDouble1 toDouble2 x offsets sigma true).2
      = (List.range offsets.nrow).map
          (fun i => m.exp (-spec_feature_d2 toDouble1 x k i
            / (2 * ((m.sqrt mx - m.sqrt mn) / 2 * ((m.sqrt mx - m.sqrt mn) / 2))))) := by
  have hc : is_identified_center offsets k := Or.inl ⟨hk, hz, hlast⟩
  exact ⟨is_identified_center_unique offsets _ _ (alpha_loop_fst m toDouble2 offsets sigma) hc,
    get_spatial_weights_beta_bilateral m toDouble1 toDouble2 x offsets sigma
      (Nat.lt_of_le_of_lt (Nat.zero_le k) hk) k hc mx mn hmx hmn⟩

end CenterTieBreak

section CenterTieBreakExample

theorem dup_offsets_zero_row (i : Nat) : zero_row (dup_offsets ℝ) i ↔ i ≠ 2 := by
  constructor
  · intro h hi
    subst hi
    have := h 0 (by simp [dup_offsets])
    simp [dup_offsets, ptrOfList] at this
  · intro h j hj
    have hj0 : j = 0 := by simp [dup_offsets] at hj; omega
    subst hj0
    simp only [dup_offsets, ptrOfList, Nat.zero_mul, Nat.zero_add]
    rcases i with _ | _ | _ | i
    · simp
    · simp
    · omega
    · simp

theorem dup_features_d2 (i : Nat) (hi : i < 3) :
    spec_feature_d2 id (dup_features ℝ) 1 i = if i = 0 then 16 else if i = 1 then 0 else 1 := by
  interval_cases i <;> simp [spec_feature_d2, dup_features, ptrOfList] <;> norm_num

theorem dup_features_greatest :
    IsGreatest (spec_feature_d2 id (dup_features ℝ) 1 '' Set.Iio (dup_offsets ℝ).nrow) 16 := by
  refine ⟨⟨0, by simp [dup_offsets], by rw [dup_features_d2 0 (by omega)]; simp⟩, ?_⟩
  rintro y ⟨i, hi, rfl⟩
  have hi3 : i < 3 := by simpa [dup_offsets] using hi
  rw [dup_features_d2 i hi3]
  split_ifs <;> norm_num

theorem dup_features_least :
    IsLeast (spec_feature_d2 id (dup_features ℝ) 1 '' Set.Iio (dup_offsets ℝ).nrow) 0 := by
  refine ⟨⟨1, by simp [dup_offsets], by rw [dup_features_d2 1 (by omega)]; simp⟩, ?_⟩
  rintro y ⟨i, _, rfl⟩
  exact spec_feature_d2_nonneg id (dup_features ℝ) 1 i

/-- Witness of C16, as amended: offsets 0, 0, 3 and feature values 5, 1, 2: the last zero
row is the row 1. -/
theorem get_spatial_weights_center_last_witness :
    1 < (dup_offsets ℝ).nrow ∧ zero_row (dup_offsets ℝ) 1 ∧
    (∀ i, 1 < i → i < (dup_offsets ℝ).nrow → ¬ zero_row (dup_offsets ℝ) i) ∧
    IsGreatest (spec_feature_d2 id (dup_features ℝ) 1 '' Set.Iio (dup_offsets ℝ).nrow) 16 ∧
    IsLeast (spec_feature_d2 id (dup_features ℝ) 1 '' Set.Iio (dup_offsets ℝ).nrow) 0 ∧
    ((alpha_loop (⟨Real.sqrt, Real.exp, fun x y => x ^ y, fun _ => 0⟩ : CMath ℝ) id
        (dup_offsets ℝ) 1).1 = 1 ∧
      (get_spatial_weights (⟨Real.sqrt, Real.exp, fun x y => x ^ y, fun _ => 0⟩ : CMath ℝ)
          id id (dup_features ℝ) (dup_offsets ℝ) 1 true).2
        = (List.range (dup_offsets ℝ).nrow).map
            (fun i => Real.exp (-spec_feature_d2 id (dup_features ℝ) 1 i
              / (2 * ((Real.sqrt 16 - Real.sqrt 0) / 2
                * ((Real.sqrt 16 - Real.sqrt 0) / 2)))))) := by
  have h1 : 1 < (dup_offsets ℝ).nrow := by simp [dup_offsets]
  have h2 : zero_row (dup_offsets ℝ) 1 := (dup_offsets_zero_row 1).mpr (by omega)
  have h3 : ∀ i, 1 < i → i < (dup_offsets ℝ).nrow → ¬ zero_row (dup_offsets ℝ) i := by
    intro i hi1 hi2 hz
    have : i < 3 := by simpa [dup_offsets] using hi2
    exact (dup_offsets_zero_row i).mp hz (by omega)
  exact ⟨h1, h2, h3, dup_features_greatest, dup_features_least,
    get_spatial_weights_center_last _ id id (dup_features ℝ) (dup_offsets ℝ) 1 1 h1 h2 h3
      16 0 dup_features_greatest dup_features_least⟩

end CenterTieBreakExample

section CenterTieBreakCounterexample

/-- Claim C16 as stated fails. With the offsets 0, 0, 3 the rows 0 and 1 are both zero; the
center index after the first loop is 1, the last zero row, not the first one, and the beta
values are measured against the row 1: with the feature values 5, 1, 2 the row 0 gets
`beta = exp(-16 / (2 * 4)) = exp(-2)` and the row 1 gets `beta = 1`, whereas the row 0
would get `beta = 1` if it were the center. -/
theorem get_spatial_weights_center_first_counterexample :
    zero_row (dup_offsets ℝ) 0 ∧ zero_row (dup_offsets ℝ) 1 ∧
    (alpha_loop (⟨Real.sqrt, Real.exp, fun x y => x ^ y, fun _ => 0⟩ : CMath ℝ) id
      (dup_offsets ℝ) 1).1 = 1 ∧
    (get_spatial_weights (⟨Real.sqrt, Real.exp, fun x y => x ^ y, fun _ => 0⟩ : CMath ℝ)
      id id (dup_features ℝ) (dup_offsets ℝ) 1 true).2.getD 0 0 = Real.exp (-2) ∧
    (get_spatial_weights (⟨Real.sqrt, Real.exp, fun x y => x ^ y, fun _ => 0⟩ : CMath ℝ)
      id id (dup_features ℝ) (dup_offsets ℝ) 1 true).2.getD 1 0 = 1 ∧
    Real.exp (-2) ≠ 1 := by
  have h1 : 1 < (dup_offsets ℝ).nrow := by simp [dup_offsets]
  have hc : is_identified_center (dup_offsets ℝ) 1 := by
    left
    refine ⟨h1, (dup_offsets_zero_row 1).mpr (by omega), ?_⟩
    intro i hi1 hi2 hz
    have : i < 3 := by simpa [dup_offsets] using hi2
    exact (dup_offsets_zero_row i).mp hz (by omega)
  have hbeta := get_spatial_weights_beta_bilateral
    (⟨Real.sqrt, Real.exp, fun x y => x ^ y, fun _ => 0⟩ : CMath ℝ) id id (dup_features ℝ)
    (dup_offsets ℝ) 1 (by simp [dup_offsets]) 1 hc 16 0 dup_features_greatest
    dup_features_least
  have h16 : Real.sqrt 16 = 4 := by
    rw [show (16 : ℝ) = 4 ^ 2 by norm_num, Real.sqrt_sq (by norm_num)]
  have hn3 : (dup_offsets ℝ).nrow = 3 := rfl
  refine ⟨(dup_offsets_zero_row 0).mpr (by omega), (dup_offsets_zero_row 1).mpr (by omega),
    is_identified_center_unique (dup_offsets ℝ) _ _ (alpha_loop_fst _ id (dup_offsets ℝ) 1) hc,
    ?_, ?_, ?_⟩
  · rw [hbeta, hn3]
    simp only [List.range_succ, List.range_zero, List.nil_append, List.cons_append,
      List.map_cons, List.getD_cons_zero]
    rw [dup_features_d2 0 (by omega), h16, Real.sqrt_zero]
    norm_num
  · rw [hbeta, hn3]
    simp only [List.range_succ, List.range_zero, List.nil_append, List.cons_append,
      List.map_cons, List.getD_cons_succ, List.getD_cons_zero]
    rw [dup_features_d2 1 (by omega)]
    simp
  · intro h
    have := Real.exp_lt_exp.mpr (show (-2 : ℝ) < 0 by norm_num)
    rw [h, Real.exp_zero] at this
    exact lt_irrefl _ this

end CenterTieBreakCounterexample

/-! ## Degenerate inputs: no failure is reported -/

section DegenerateBandwidth

variable {α : Type} [LinearOrderedField α] {T1 T2 : Type} [Sub T1] [Zero T2] [DecidableEq T2]

/-- Feature vectors that are all identical to the one of the column `k` have squared
feature distance 0 to it. -/
theorem spec_feature_d2_identical (toDouble : T1 → α) (hself : ∀ a : T1, toDouble (a - a) = 0)
    (x : RMatrix T1) (k i : Nat)
    (h : ∀ j, j < x.nrow → x.ptr (i * x.nrow + j) = x.ptr (k * x.nrow + j)) :
    spec_feature_d2 toDouble x k i = 0 := by
  unfold spec_feature_d2
  apply Finset.sum_eq_zero
  intro j hj
  rw [h j (Finset.mem_range.mp hj), hself]
  simp

/-- With identical feature vectors both extrema of the second loop are 0. -/
theorem extrema_degenerate (toDouble : T1 → α) (x : RMatrix T1) (n k : Nat) (hn : 0 < n)
    (hall : ∀ i, i < n → spec_feature_d2 toDouble x k i = 0) :
    IsGreatest (spec_feature_d2 toDouble x k '' Set.Iio n) 0 ∧
    IsLeast (spec_feature_d2 toDouble x k '' Set.Iio n) 0 := by
  refine ⟨⟨⟨0, Set.mem_Iio.mpr hn, hall 0 hn⟩, ?_⟩, ⟨⟨0, Set.mem_Iio.mpr hn, hall 0 hn⟩, ?_⟩⟩
  · rintro y ⟨i, hi, rfl⟩
    exact le_of_eq (hall i (Set.mem_Iio.mp hi))
  · rintro y ⟨i, hi, rfl⟩
    exact le_of_eq (hall i (Set.mem_Iio.mp hi)).symm

/-- With identical feature vectors the bandwidth `lambda` that the code computes is 0. -/
theorem bandwidth_degenerate (m : CMath α) (toDouble1 : T1 → α) (toDouble2 : T2 → α)
    (x : RMatrix T1) (offsets : RMatrix T2) (sigma : α) (k : Nat)
    (hk : is_identified_center offsets k) (hn : 0 < offsets.nrow)
    (hall : ∀ i, i < offsets.nrow → spec_feature_d2 toDouble1 x k i = 0) :
    bandwidth m (extrema_loop toDouble1 x offsets.nrow
      (alpha_loop m toDouble2 offsets sigma).1 (fun _ => 0)).1 = 0 := by
  have hk2 : (alpha_loop m toDouble2 offsets sigma).1 = k :=
    is_identified_center_unique offsets _ _ (alpha_loop_fst m toDouble2 offsets sigma) hk
  obtain ⟨hmx, hmn⟩ := extrema_degenerate toDouble1 x offsets.nrow k hn hall
  obtain ⟨⟨mx2, mn2, hst, hmx2, hmn2⟩, _⟩ :=
    extrema_loop_eq toDouble1 x offsets.nrow k (fun _ => 0) hn
  rw [hk2, hst, hmx2.unique hmx, hmn2.unique hmn]
  simp [bandwidth]

/-- Claim C17, as amended. `get_spatial_weights` with `bilateral = true`, when every
neighbor has the feature vector of the center, reports no failure: the bandwidth `lambda`
it computes is 0, and it returns an alpha vector and a beta vector, both of the length of
the neighbor set.  (Nothing is stated on the values of the beta entries, which the code
computes by dividing by `2 * lambda = 0`.) -/
theorem get_spatial_weights_degenerate (m : CMath α) (toDouble1 : T1 → α)
    (hself : ∀ a : T1, toDouble1 (a - a) = 0) (toDouble2 : T2 → α) (x : RMatrix T1)
    (offsets : RMatrix T2) (sigma : α) (k : Nat) (hk : is_identified_center offsets k)
    (hn : 0 < offsets.nrow)
    (hall : ∀ i, i < offsets.nrow → ∀ j, j < x.nrow →
      x.ptr (i * x.nrow + j) = x.ptr (k * x.nrow + j)) :
    bandwidth m (extrema_loop toDouble1 x offsets.nrow
      (alpha_loop m toDouble2 offsets sigma).1 (fun _ => 0)).1 = 0 ∧
    (get_spatial_weights m toDouble1 toDouble2 x offsets sigma true).1.length
      = offsets.nrow ∧
    (get_spatial_weights m toDouble1 toDouble2 x offsets sigma true).2.length
      = offsets.nrow := by
  have hd2 : ∀ i, i < offsets.nrow → spec_feature_d2 toDouble1 x k i = 0 := fun i hi =>
    spec_feature_d2_identical toDouble1 hself x k i (hall i hi)
  refine ⟨bandwidth_degenerate m toDouble1 toDouble2 x offsets sigma k hk hn hd2, ?_, ?_⟩
  · rw [get_spatial_weights_alpha]; simp
  · simp [get_spatial_weights, vecElems]

end DegenerateBandwidth

section DegenerateBandwidthExample

theorem same_features_identical :
    ∀ i, i < (two_offsets ℝ).nrow → ∀ j, j < (same_features ℝ).nrow →
      (same_features ℝ).ptr (i * (same_features ℝ).nrow + j)
        = (same_features ℝ).ptr (0 * (same_features ℝ).nrow + j) := by
  intro i hi j hj
  have hi2 : i < 2 := by simpa [two_offsets] using hi
  have hj0 : j = 0 := by simp [same_features] at hj; omega
  subst hj0
  interval_cases i <;> simp [same_features, ptrOfList]

/-- Witness of C17, as amended: offsets 0 and 3, both pixels with the feature value 7. -/
theorem get_spatial_weights_degenerate_witness :
    (∀ a : ℝ, id (a - a) = 0) ∧ is_identified_center (two_offsets ℝ) 0 ∧
    0 < (two_offsets ℝ).nrow ∧
    (∀ i, i < (two_offsets ℝ).nrow → ∀ j, j < (same_features ℝ).nrow →
      (same_features ℝ).ptr (i * (same_features ℝ).nrow + j)
        = (same_features ℝ).ptr (0 * (same_features ℝ).nrow + j)) ∧
    (bandwidth (⟨Real.sqrt, Real.exp, fun x y => x ^ y, fun _ => 0⟩ : CMath ℝ)
        (extrema_loop id (same_features ℝ) (two_offsets ℝ).nrow
          (alpha_loop (⟨Real.sqrt, Real.exp, fun x y => x ^ y, fun _ => 0⟩ : CMath ℝ) id
            (two_offsets ℝ) 1).1 (fun _ => 0)).1 = 0 ∧
      (get_spatial_weights (⟨Real.sqrt, Real.exp, fun x y => x ^ y, fun _ => 0⟩ : CMath ℝ)
          id id (same_features ℝ) (two_offsets ℝ) 1 true).1.length = (two_offsets ℝ).nrow ∧
      (get_spatial_weights (⟨Real.sqrt, Real.exp, fun x y => x ^ y, fun _ => 0⟩ : CMath ℝ)
          id id (same_features ℝ) (two_offsets ℝ) 1 true).2.length
        = (two_offsets ℝ).nrow) :=
  ⟨fun a => sub_self a, two_offsets_center, by simp [two_offsets], same_features_identical,
    get_spatial_weights_degenerate _ id (fun a => sub_self a) id (same_features ℝ)
      (two_offsets ℝ) 1 0 two_offsets_center (by simp [two_offsets])
      same_features_identical⟩

/-- Claim C17 as stated fails. For the offsets 0 and 3 and two pixels with the same feature
value 7, every neighbor has the feature vector of the center and `lambda` is 0, and
`get_spatial_weights` with `bilateral = true` returns a beta vector of length 2: the
function has no failure result. -/
theorem get_spatial_weights_no_failure_counterexample :
    (∀ i, i < (two_offsets ℝ).nrow → ∀ j, j < (same_features ℝ).nrow →
      (same_features ℝ).ptr (i * (same_features ℝ).nrow + j)
        = (same_features ℝ).ptr (0 * (same_features ℝ).nrow + j)) ∧
    bandwidth (⟨Real.sqrt, Real.exp, fun x y => x ^ y, fun _ => 0⟩ : CMath ℝ)
      (extrema_loop id (same_features ℝ) (two_offsets ℝ).nrow
        (alpha_loop (⟨Real.sqrt, Real.exp, fun x y => x ^ y, fun _ => 0⟩ : CMath ℝ) id
          (two_offsets ℝ) 1).1 (fun _ => 0)).1 = 0 ∧
    (get_spatial_weights (⟨Real.sqrt, Real.exp, fun x y => x ^ y, fun _ => 0⟩ : CMath ℝ)
      id id (same_features ℝ) (two_offsets ℝ) 1 true).2.length = 2 := by
  refine ⟨same_features_identical, ?_, ?_⟩
  · exact bandwidth_degenerate _ id id (same_features ℝ) (two_offsets ℝ) 1 0
      two_offsets_center (by simp [two_offsets])
      (fun i hi => spec_feature_d2_identical id (fun a => sub_self a) (same_features ℝ) 0 i
        (same_features_identical i hi))
  · simp [get_spatial_weights, vecElems, two_offsets]

end DegenerateBandwidthExample

section DegenerateNeighborhood

variable {α : Type} [LinearOrderedField α] {T1 T2 T3 T4 : Type} [Sub T1] [Zero T2]
  [DecidableEq T2]

/-- With an offsets matrix without rows `get_spatial_weights` returns two empty vectors. -/
theorem get_spatial_weights_empty (m : CMath α) (toDouble1 : T1 → α) (toDouble2 : T2 → α)
    (x : RMatrix T1) (offsets : RMatrix T2) (sigma : α) (bilateral : Bool)
    (hoff : offsets.nrow = 0) :
    get_spatial_weights m toDouble1 toDouble2 x offsets sigma bilateral = ([], []) := by
  simp [get_spatial_weights, vecElems, hoff]

/-- Claim C18, as amended. When a zero-length neighbor list is passed, no failure is
reported and a result is returned: `get_spatial_weights` (offsets without rows) returns an
empty alpha and an empty beta vector, `get_spatial_scores` returns the score 0 of the
point for every center, and `get_spatial_filter` returns the value 0 in every component of
the column of the point; the loops over the neighbors, with the division by the zero
weight sum, are not entered. -/
theorem empty_neighborhood_result (m : CMath α) (toDouble1 : T1 → α) (toDouble2 : T2 → α)
    (x : RMatrix T1) (offsets : RMatrix T2) (sigma : α) (bilateral : Bool)
    (hoff : offsets.nrow = 0)
    (toDouble3 : T3 → α) (toDouble4 : T4 → α) (feat : RMatrix T3) (centers : RMatrix T4)
    (weights : Nat → (Nat → α) × (Nat → α)) (neighbors : List (List Nat)) (sd : Nat → α)
    (i k j : Nat) (hi : i < neighbors.length) (hnb : neighbors.getD i [] = [])
    (hk : k < centers.ncol) (hj : j < feat.nrow) :
    get_spatial_weights m toDouble1 toDouble2 x offsets sigma bilateral = ([], []) ∧
    (get_spatial_scores toDouble3 toDouble4 feat centers weights neighbors sd).entry i k = 0 ∧
    (get_spatial_filter toDouble3 feat weights neighbors).entry j i = 0 := by
  refine ⟨get_spatial_weights_empty m toDouble1 toDouble2 x offsets sigma bilateral hoff,
    ?_, ?_⟩
  · have hcell := get_spatial_scores_cell toDouble3 toDouble4 feat centers weights neighbors
      sd i k hi hk
    have hentry : (get_spatial_scores toDouble3 toDouble4 feat centers weights neighbors
        sd).entry i k
        = (get_spatial_scores toDouble3 toDouble4 feat centers weights neighbors sd).ptr
          (k * neighbors.length + i) := rfl
    rw [hentry, hcell, hnb]
    simp
  · have hcell := get_spatial_filter_cell toDouble3 feat weights neighbors i j hi hj
    have hentry : (get_spatial_filter toDouble3 feat weights neighbors).entry j i
        = (get_spatial_filter toDouble3 feat weights neighbors).ptr (i * feat.nrow + j) := rfl
    rw [hentry, hcell, hnb]
    simp

end DegenerateNeighborhood

section DegenerateNeighborhoodExample

/-- Witness of C18, as amended: offsets without rows, and one point with the empty neighbor
vector against the feature values 0 and 2. -/
theorem empty_neighborhood_result_witness :
    (no_offsets ℚ).nrow = 0 ∧ 0 < [([] : List Nat)].length ∧
    [([] : List Nat)].getD 0 [] = [] ∧ 0 < (two_features ℚ).ncol ∧
    0 < (two_features ℚ).nrow ∧
    (get_spatial_weights ⟨id, id, fun x _ => x, id⟩ id id (two_features ℚ) (no_offsets ℚ) 1
        true = ([], []) ∧
      (get_spatial_scores id id (two_features ℚ) (two_features ℚ) (unit_weights ℚ) [[]]
        (fun _ => 1)).entry 0 0 = 0 ∧
      (get_spatial_filter id (two_features ℚ) (unit_weights ℚ) [[]]).entry 0 0 = 0) :=
  ⟨rfl, by decide, rfl, by simp [two_features], by simp [two_features],
    empty_neighborhood_result ⟨id, id, fun x _ => x, id⟩ id id (two_features ℚ)
      (no_offsets ℚ) 1 true rfl id id (two_features ℚ) (two_features ℚ) (unit_weights ℚ)
      [[]] (fun _ => 1) 0 0 0 (by decide) rfl (by simp [two_features])
      (by simp [two_features])⟩

/-- Claim C18 as stated fails. For one point with the empty neighbor vector,
`get_spatial_scores` returns the score 0 and `get_spatial_filter` the value 0, and for an
offsets matrix without rows `get_spatial_weights` returns two empty vectors: each
operation returns a result, none reports a failure. -/
theorem empty_neighborhood_counterexample :
    [([] : List Nat)].getD 0 [] = [] ∧ (no_offsets ℚ).nrow = 0 ∧
    get_spatial_weights ⟨id, id, fun x _ => x, id⟩ id id (two_features ℚ) (no_offsets ℚ) 1
      true = ([], []) ∧
    (get_spatial_scores id id (two_features ℚ) (two_features ℚ) (unit_weights ℚ) [[]]
      (fun _ => 1)).entry 0 0 = 0 ∧
    (get_spatial_filter id (two_features ℚ) (unit_weights ℚ) [[]]).entry 0 0 = 0 := by
  refine ⟨rfl, rfl, get_spatial_weights_empty _ id id (two_features ℚ) (no_offsets ℚ) 1 true
    rfl, ?_, ?_⟩
  · have hcell := get_spatial_scores_cell id id (two_features ℚ) (two_features ℚ)
      (unit_weights ℚ) [[]] (fun _ => 1) 0 0 (by decide) (by simp [two_features])
    have hentry : (get_spatial_scores id id (two_features ℚ) (two_features ℚ)
        (unit_weights ℚ) [[]] (fun _ => 1)).entry 0 0
        = (get_spatial_scores id id (two_features ℚ) (two_features ℚ) (unit_weights ℚ) [[]]
          (fun _ => 1)).ptr (0 * [([] : List Nat)].length + 0) := rfl
    rw [hentry, hcell]
    simp
  · have hcell := get_spatial_filter_cell id (two_features ℚ) (unit_weights ℚ) [[]] 0 0
      (by decide) (by simp [two_features])
    have hentry : (get_spatial_filter id (two_features ℚ) (unit_weights ℚ) [[]]).entry 0 0
        = (get_spatial_filter id (two_features ℚ) (unit_weights ℚ) [[]]).ptr
          (0 * (two_features ℚ).nrow + 0) := rfl
    rw [hentry, hcell]
    simp

end DegenerateNeighborhoodExample

end Cardinal
